import Mathlib

/-!
Verification of the chat-composer input engine.

Strings of the source are embedded as lists of characters (`Str`).  Each
definition mirrors one function of the renderer source: the slash-command
classifier, the paste vaults and their placeholder expansion, the suggestion
engines, the selection cycler, the double-press detector and the submit path
of the input orchestrator.  Theorems about the claims of the specification
follow the definitions.
-/

set_option linter.unusedVariables false
set_option maxRecDepth 40000

abbrev Str := List Char

/-- Character class used by the JavaScript string trim operation and by the
whitespace class of regular expressions: ASCII whitespace, no-break space,
the Unicode space separators, the line separators and the BOM. -/
def jsWhitespace (c : Char) : Bool :=
  c = ' ' || c = '\t' || c = '\n' || c = '\r' || c = '\x0b' || c = '\x0c' ||
  c = ' ' || c = ' ' ||
  (0x2000 ≤ c.toNat && c.toNat ≤ 0x200A) ||
  c = ' ' || c = ' ' || c = ' ' || c = ' ' ||
  c = '　' || c = '﻿'

/-- Embedding of the JavaScript trim operation: drop the maximal whitespace
run from both ends of the string. -/
def jsTrim (s : Str) : Str :=
  ((s.dropWhile jsWhitespace).reverse.dropWhile jsWhitespace).reverse

/-- Decimal digit test, the character class of the regular expressions of the
source. -/
def jsIsDigit (c : Char) : Bool :=
  48 ≤ c.toNat && c.toNat ≤ 57

/-- The first-slash test of the slash-command module: a string is considered
a file path when it starts with a slash and contains a further slash. -/
def isFilePath (input : Str) : Bool :=
  (input.head? == some '/') && (input.drop 1).contains '/'

/-- Embedding of the slash-command classifier: trim, reject non-slash
starts, the bare slash and glob-like starts, then test the first
whitespace-delimited word against the file-path test. -/
def isSlashCommand (input : Str) : Bool :=
  let trimmed := jsTrim input
  if trimmed.head? != some '/' then false
  else if trimmed == ['/'] then false
  else if ['/', '*'].isPrefixOf trimmed then false
  else
    let commandPart := trimmed.takeWhile (fun c => !jsWhitespace c)
    !commandPart.isEmpty && !isFilePath commandPart

/-- C3 counterexample: the string with a leading blank does not start with a
slash, yet the classifier accepts it, because it trims its input first. -/
theorem isSlashCommand_leading_space_counterexample :
    isSlashCommand (" /help".data) = true ∧ (" /help".data).head? ≠ some '/' := by
  constructor
  · decide
  · decide

/-- C3 amended: the classifier returns false for every string whose trimmed
form does not start with a slash, accepts the plain "/help" command and
rejects the two-slash path, the bare slash and the glob-like start. -/
theorem isSlashCommand_spec :
    (∀ s : Str, (jsTrim s).head? ≠ some '/' → isSlashCommand s = false) ∧
    isSlashCommand ("/help".data) = true ∧
    isSlashCommand ("/path/to/file".data) = false ∧
    isSlashCommand ("/".data) = false ∧
    isSlashCommand ("/*foo".data) = false := by
  refine ⟨?_, by decide, by decide, by decide, by decide⟩
  intro s h
  rw [isSlashCommand]
  have hb : ((jsTrim s).head? != some '/') = true := by
    simp only [bne_iff_ne, ne_eq]
    exact h
  simp only [hb, if_true]

/-- C3 witness: a concrete string whose trimmed form does not start with a
slash is rejected. -/
theorem isSlashCommand_spec_witness :
    (jsTrim ("hello".data)).head? ≠ some '/' ∧ isSlashCommand ("hello".data) = false :=
  ⟨by decide, isSlashCommand_spec.1 ("hello".data) (by decide)⟩

/-- Fuel-indexed digit rendering; the fuel only makes the recursion
structural and any fuel above the number is enough. -/
def natDigitsAux : Nat → Nat → Str
  | 0, _ => []
  | f + 1, n =>
    if n < 10 then [Char.ofNat (48 + n)]
    else natDigitsAux f (n / 10) ++ [Char.ofNat (48 + n % 10)]

/-- Decimal rendering of a natural number, the template-literal rendering of
the source's nonnegative counters. -/
def natDigits (n : Nat) : Str :=
  natDigitsAux (n + 1) n

/-- Number of segments produced by splitting a string at CRLF, CR or LF,
the line count shown in the pasted-text placeholder. -/
def lineCount : Str → Nat
  | [] => 1
  | '\r' :: '\n' :: rest => 1 + lineCount rest
  | '\r' :: rest => 1 + lineCount rest
  | '\n' :: rest => 1 + lineCount rest
  | _ :: rest => lineCount rest

/-- Fuel-indexed global scan; every step consumes at least one character,
so any fuel at or above the string length is enough. -/
def matchAllCore (parse : Str → Option (Str × Str)) : Nat → Str → List (Str × Str)
  | 0, _ => []
  | _ + 1, [] => []
  | f + 1, c :: rest =>
    match parse (c :: rest) with
    | some (full, ident) =>
      (full, ident) :: matchAllCore parse f ((c :: rest).drop (max full.length 1))
    | none => matchAllCore parse f rest

/-- One global scan of a string with a token parser, mirroring the global
matchAll loops of the source: at each index the parser is tried; on success
the match is recorded and scanning resumes after its end. -/
def matchAllAux (parse : Str → Option (Str × Str)) (s : Str) : List (Str × Str) :=
  matchAllCore parse s.length s

/-- Literal-prefix step of the placeholder parsers: check that the literal
starts the string and return the remainder. -/
def expectLit (lit s : Str) : Option Str :=
  if lit.isPrefixOf s then some (s.drop lit.length) else none

/-- Parser for the pasted-text placeholder pattern at the start of a string:
the opening literal, a nonempty digit run (the id), one space, a second
nonempty digit run (the line count) and the closing literal.  Returns the
full match and the captured id including its hash. -/
def parsePastedAt (s : Str) : Option (Str × Str) :=
  match expectLit ("[Pasted text #".data) s with
  | none => none
  | some r1 =>
    let ds1 := r1.takeWhile jsIsDigit
    let r2 := r1.drop ds1.length
    if ds1.isEmpty then none
    else match expectLit (" ".data) r2 with
      | none => none
      | some r3 =>
        let ds2 := r3.takeWhile jsIsDigit
        let r4 := r3.drop ds2.length
        if ds2.isEmpty then none
        else match expectLit (" lines]".data) r4 with
          | none => none
          | some _ =>
            some ("[Pasted text #".data ++ ds1 ++ " ".data ++ ds2 ++ " lines]".data,
                  '#' :: ds1)

/-- Parser for the image placeholder pattern at the start of a string.  The
segment between the dimension block and the first closing bracket must be
nonempty, bracket-free, and end with a hash followed by the digits of the
id, with a nonempty part before that hash; this is the backtracking
behaviour of the bracket-free one-or-more class of the source pattern. -/
def parseImageAt (s : Str) : Option (Str × Str) :=
  match expectLit ("[Image ".data) s with
  | none => none
  | some r1 =>
    let w := r1.takeWhile jsIsDigit
    let r2 := r1.drop w.length
    if w.isEmpty then none
    else match expectLit ("X".data) r2 with
      | none => none
      | some r3 =>
        let h := r3.takeWhile jsIsDigit
        let r4 := r3.drop h.length
        if h.isEmpty then none
        else match expectLit (" ".data) r4 with
          | none => none
          | some r5 =>
            let seg := r5.takeWhile (fun c => c != ']')
            let r6 := r5.drop seg.length
            if r6.head? != some ']' then none
            else
              let dsRev := seg.reverse.takeWhile jsIsDigit
              match seg.reverse.drop dsRev.length with
              | [] => none
              | hash :: preRev =>
                if hash = '#' then
                  if dsRev.isEmpty || preRev.isEmpty then none
                  else
                    some ("[Image ".data ++ w ++ "X".data ++ h ++ " ".data ++ seg ++ "]".data,
                          '#' :: dsRev.reverse)
                else none

/-- First-occurrence search of a pattern inside a string: the decomposition
around the earliest occurrence, when one exists. -/
def findFirst (s pat : Str) : Option (Str × Str) :=
  if pat.isPrefixOf s then some ([], s.drop pat.length)
  else match s with
    | [] => none
    | c :: rest =>
      match findFirst rest pat with
      | some (a, b) => some (c :: a, b)
      | none => none

/-- Dollar-escape processing of the JavaScript replace operation for string
replacement arguments: a doubled dollar yields a literal dollar, dollar
ampersand the matched text, dollar backquote the part before the match and
dollar apostrophe the part after the match. -/
def substDollar (matched before after : Str) : Str → Str
  | [] => []
  | [c] => [c]
  | c :: d :: r =>
    if c = '$' then
      if d = '$' then '$' :: substDollar matched before after r
      else if d = '&' then matched ++ substDollar matched before after r
      else if d.toNat = 96 then before ++ substDollar matched before after r
      else if d.toNat = 39 then after ++ substDollar matched before after r
      else '$' :: substDollar matched before after (d :: r)
    else c :: substDollar matched before after (d :: r)

/-- Embedding of the JavaScript replace operation with a plain-string
pattern: substitute the first occurrence, processing dollar escapes in the
replacement. -/
def jsReplace (s pat repl : Str) : Str :=
  match findFirst s pat with
  | none => s
  | some (a, b) => a ++ substDollar pat a b repl ++ b

/-- Expansion of pasted-text placeholders: scan the message once for all
placeholder matches, then substitute, one first-occurrence replace per
match, skipping ids with no vault entry. -/
def expandPastedText (vault : List (Str × Str)) (message : Str) : Str :=
  (matchAllAux parsePastedAt message).foldl
    (fun expanded m =>
      match List.lookup m.2 vault with
      | some content => jsReplace expanded m.1 content
      | none => expanded)
    message

/-- Expansion of image placeholders: scan the message once for all image
matches, collect the resolved payloads in match order, and strip each
resolved placeholder from the message, trimming after every removal.
Unresolved ids are skipped. -/
def expandImageReferences (vault : List (Str × Str)) (message : Str) :
    Str × List Str :=
  (matchAllAux parseImageAt message).foldl
    (fun acc m =>
      match List.lookup m.2 vault with
      | some dat => (jsTrim (jsReplace acc.1 m.1 []), acc.2 ++ [dat])
      | none => acc)
    (message, [])

/-- State of one paste vault: the token counter and the id-to-payload map,
newest entry first (the spread-update of the source keeps the latest
binding for an id). -/
structure PasteVault where
  counter : Nat
  entries : List (Str × Str)
deriving DecidableEq, Repr

/-- The vault of a fresh session. -/
def pasteVaultInit : PasteVault := ⟨0, []⟩

/-- The placeholder inserted for a stored text paste. -/
def pastedTextPrompt (text : Str) (pasteId : Str) : Str :=
  "[Pasted text ".data ++ pasteId ++ " ".data ++ natDigits (lineCount text) ++ " lines]".data

/-- Embedding of handleTextPaste: trim the raw paste, reject a blank one,
otherwise assign the next token id, store the trimmed text and produce the
placeholder. -/
def handleTextPaste (v : PasteVault) (rawText : Str) : PasteVault × Option (Str × Str) :=
  let text := jsTrim rawText
  if text.isEmpty then (v, none)
  else
    let pasteId := '#' :: natDigits (v.counter + 1)
    (⟨v.counter + 1, (pasteId, text) :: v.entries⟩,
     some (pasteId, pastedTextPrompt text pasteId))

/-- Embedding of the storing step of handleImagePaste: assign the next token
id of the image vault and store the data-URI payload under it. -/
def handleImagePaste (v : PasteVault) (base64 : Str) : PasteVault × Str :=
  let imageId := '#' :: natDigits (v.counter + 1)
  (⟨v.counter + 1, (imageId, base64) :: v.entries⟩, imageId)

example : lineCount ("ab".data) = 1 := by decide
example : lineCount ("a\r\nb\nc".data) = 3 := by decide
example : natDigits 801 = "801".data := by decide
example : parsePastedAt ("[Pasted text #12 3 lines] x".data) =
    some ("[Pasted text #12 3 lines]".data, "#12".data) := by decide
example : parseImageAt ("[Image 10X20 a#3]".data) =
    some ("[Image 10X20 a#3]".data, "#3".data) := by decide
example : parseImageAt ("[Image 10X20 #3]".data) = none := by decide
example : jsReplace ("xABy".data) ("AB".data) ("u".data) = "xuy".data := by decide
example : substDollar ("M".data) ("B".data) ("A".data) ("a$&b".data) = "aMb".data := by decide

example : expandPastedText ([("#1".data, "HELLO".data)])
    ("a [Pasted text #1 1 lines] b".data) = "a HELLO b".data := by decide
example : expandImageReferences ([("#1".data, "IMG".data)])
    ("hi [Image 1X1 a#1]".data) = ("hi".data, ["IMG".data]) := by decide
example : expandImageReferences ([]) ("hi [Image 1X1 a#1]".data) =
    ("hi [Image 1X1 a#1]".data, []) := by decide

/-- A digit character rendered from a value below ten satisfies the digit
class. -/
theorem jsIsDigit_ofNat {k : Nat} (h : k < 10) : jsIsDigit (Char.ofNat (48 + k)) = true := by
  interval_cases k <;> decide

/-- Digit rendering with enough fuel is nonempty. -/
theorem natDigitsAux_ne_nil : ∀ f n, n < f → natDigitsAux f n ≠ [] := by
  intro f
  induction f with
  | zero => intro n h; omega
  | succ f ih =>
    intro n h
    rw [natDigitsAux]
    by_cases h10 : n < 10
    · simp [h10]
    · simp only [h10, if_false]
      simp

/-- Digit rendering with enough fuel yields digit characters only. -/
theorem natDigitsAux_digits : ∀ f n, n < f → ∀ c ∈ natDigitsAux f n, jsIsDigit c = true := by
  intro f
  induction f with
  | zero => intro n h; omega
  | succ f ih =>
    intro n h c hc
    rw [natDigitsAux] at hc
    by_cases h10 : n < 10
    · simp only [h10, if_true, List.mem_singleton] at hc
      subst hc
      exact jsIsDigit_ofNat h10
    · simp only [h10, if_false, List.mem_append, List.mem_singleton] at hc
      rcases hc with hc | hc
      · exact ih (n / 10) (by omega) c hc
      · subst hc
        exact jsIsDigit_ofNat (Nat.mod_lt n (by omega))

/-- The decimal rendering of a counter value is nonempty. -/
theorem natDigits_ne_nil (n : Nat) : natDigits n ≠ [] :=
  natDigitsAux_ne_nil (n + 1) n (Nat.lt_succ_self n)

/-- The decimal rendering of a counter value consists of digits. -/
theorem natDigits_digits (n : Nat) : ∀ c ∈ natDigits n, jsIsDigit c = true :=
  natDigitsAux_digits (n + 1) n (Nat.lt_succ_self n)

/-- The literal-prefix step succeeds on a string that starts with the
literal, returning the remainder. -/
theorem expectLit_append (lit x : Str) : expectLit lit (lit ++ x) = some x := by
  rw [expectLit]
  rw [if_pos]
  · rw [List.drop_left]
  · exact List.isPrefixOf_iff_prefix.mpr (List.prefix_append lit x)

/-- The pasted-text parser recognises a full placeholder at the head of a
string and returns it together with its id. -/
theorem parsePastedAt_token (ds1 ds2 rest : Str)
    (h1 : ds1 ≠ []) (h1d : ∀ c ∈ ds1, jsIsDigit c = true)
    (h2 : ds2 ≠ []) (h2d : ∀ c ∈ ds2, jsIsDigit c = true) :
    parsePastedAt ("[Pasted text #".data ++ ds1 ++ " ".data ++ ds2 ++ " lines]".data ++ rest) =
      some ("[Pasted text #".data ++ ds1 ++ " ".data ++ ds2 ++ " lines]".data, '#' :: ds1) := by
  have e1 : "[Pasted text #".data ++ ds1 ++ " ".data ++ ds2 ++ " lines]".data ++ rest =
      "[Pasted text #".data ++ (ds1 ++ (" ".data ++ (ds2 ++ (" lines]".data ++ rest)))) := by
    simp [List.append_assoc]
  rw [parsePastedAt, e1, expectLit_append]
  have ht1 : (ds1 ++ (" ".data ++ (ds2 ++ (" lines]".data ++ rest)))).takeWhile jsIsDigit = ds1 := by
    rw [List.takeWhile_append_of_pos h1d]
    simp [List.takeWhile_cons]
    decide
  simp only [ht1]
  rw [List.drop_left]
  have hne1 : ds1.isEmpty = false := by
    cases ds1
    · exact absurd rfl h1
    · rfl
  simp only [hne1, Bool.false_eq_true, if_false]
  rw [expectLit_append]
  have ht2 : (ds2 ++ (" lines]".data ++ rest)).takeWhile jsIsDigit = ds2 := by
    rw [List.takeWhile_append_of_pos h2d]
    simp [List.takeWhile_cons]
    decide
  simp only [ht2]
  rw [List.drop_left]
  have hne2 : ds2.isEmpty = false := by
    cases ds2
    · exact absurd rfl h2
    · rfl
  simp only [hne2, Bool.false_eq_true, if_false]
  rw [expectLit_append]

/-- The fuel-indexed scan of the empty string yields no matches at any
fuel. -/
theorem matchAllCore_nil (parse : Str → Option (Str × Str)) (f : Nat) :
    matchAllCore parse f [] = [] := by
  cases f <;> rfl

/-- A scan of a string that is in its entirety one parser match yields
exactly that match. -/
theorem matchAllAux_whole (parse : Str → Option (Str × Str)) (s ident : Str)
    (hs : s ≠ []) (hp : parse s = some (s, ident)) :
    matchAllAux parse s = [(s, ident)] := by
  match s, hs with
  | c :: rest, _ =>
    rw [matchAllAux]
    rw [List.length_cons, matchAllCore, hp]
    dsimp only
    have hmax : max (c :: rest).length 1 = (c :: rest).length := by
      simp [Nat.max_eq_left]
    rw [hmax, List.drop_length, matchAllCore_nil]

/-- Replacement strings without dollar escapes are substituted verbatim. -/
def dollarFree : Str → Bool
  | [] => true
  | [_] => true
  | c :: d :: r =>
    if c = '$' && (d = '$' || d = '&' || d.toNat = 96 || d.toNat = 39) then false
    else dollarFree (d :: r)

/-- Dollar-escape processing is the identity on replacements free of dollar
escapes. -/
theorem substDollar_of_dollarFree (m b a : Str) :
    ∀ r, dollarFree r = true → substDollar m b a r = r := by
  have H : ∀ n (r : Str), r.length ≤ n → dollarFree r = true → substDollar m b a r = r := by
    intro n
    induction n with
    | zero =>
      intro r hr _
      match r, hr with
      | [], _ => rfl
    | succ n ih =>
      intro r hr h
      match r with
      | [] => rfl
      | [c] => rfl
      | c :: d :: r2 =>
        by_cases hc : c = '$'
        · subst hc
          rw [dollarFree] at h
          by_cases hd : (d = '$' || d = '&' || d.toNat = 96 || d.toNat = 39) = true
          · rw [if_pos (by simp [hd])] at h
            exact absurd h (by simp)
          · have hd4 : d ≠ '$' ∧ d ≠ '&' ∧ d.toNat ≠ 96 ∧ d.toNat ≠ 39 := by
              simp only [Bool.or_eq_true, decide_eq_true_eq, not_or] at hd
              exact ⟨hd.1.1.1, hd.1.1.2, hd.1.2, hd.2⟩
            rw [if_neg (by simp [hd4.1, hd4.2.1, hd4.2.2.1, hd4.2.2.2])] at h
            rw [substDollar]
            rw [if_pos rfl, if_neg hd4.1, if_neg hd4.2.1, if_neg hd4.2.2.1, if_neg hd4.2.2.2]
            rw [ih (d :: r2) (by simp at hr ⊢; omega) h]
        · rw [dollarFree] at h
          rw [if_neg (by simp [hc])] at h
          rw [substDollar, if_neg hc]
          rw [ih (d :: r2) (by simp at hr ⊢; omega) h]
  exact fun r h => H r.length r le_rfl h

/-- Replacing a whole string by a dollar-free replacement yields the
replacement. -/
theorem jsReplace_self (s repl : Str) (h : dollarFree repl = true) :
    jsReplace s s repl = repl := by
  rw [jsReplace, findFirst.eq_def]
  rw [if_pos (List.isPrefixOf_iff_prefix.mpr (List.prefix_refl s))]
  dsimp only
  rw [List.drop_length]
  rw [substDollar_of_dollarFree _ _ _ _ h]
  simp

/-- C2 counterexample: a paste of eight hundred letters followed by one
blank is stored trimmed, so the expansion returns the trimmed text, not the
original text. -/
theorem pasteRoundtrip_counterexample :
    800 ≤ (List.replicate 800 'a' ++ [' ']).length ∧
    (handleTextPaste pasteVaultInit (List.replicate 800 'a' ++ [' '])).2 =
      some ("#1".data, "[Pasted text #1 1 lines]".data) ∧
    expandPastedText (handleTextPaste pasteVaultInit (List.replicate 800 'a' ++ [' '])).1.entries
        ("[Pasted text #1 1 lines]".data) ≠ List.replicate 800 'a' ++ [' '] := by
  refine ⟨by decide, by decide, by decide⟩

/-- C2 amended: pasting a text whose trimmed form is nonempty and free of
dollar escapes and then expanding the produced placeholder against the
updated vault recovers exactly the trimmed text. -/
theorem handleTextPaste_roundtrip (v : PasteVault) (T : Str)
    (hlen : 800 ≤ T.length) (hne : jsTrim T ≠ [])
    (hd : dollarFree (jsTrim T) = true) :
    (handleTextPaste v T).2 =
      some ('#' :: natDigits (v.counter + 1),
            pastedTextPrompt (jsTrim T) ('#' :: natDigits (v.counter + 1))) ∧
    expandPastedText (handleTextPaste v T).1.entries
      (pastedTextPrompt (jsTrim T) ('#' :: natDigits (v.counter + 1))) = jsTrim T := by
  have hempty : (jsTrim T).isEmpty = false := by
    cases h : jsTrim T
    · exact absurd h hne
    · rfl
  have hnd1 := natDigits_ne_nil (v.counter + 1)
  have hnd1d := natDigits_digits (v.counter + 1)
  have hnd2 := natDigits_ne_nil (lineCount (jsTrim T))
  have hnd2d := natDigits_digits (lineCount (jsTrim T))
  have hprompt : pastedTextPrompt (jsTrim T) ('#' :: natDigits (v.counter + 1)) =
      "[Pasted text #".data ++ natDigits (v.counter + 1) ++ " ".data ++
        natDigits (lineCount (jsTrim T)) ++ " lines]".data := by
    rw [pastedTextPrompt]
    simp [List.append_assoc]
  have hparse : parsePastedAt (pastedTextPrompt (jsTrim T) ('#' :: natDigits (v.counter + 1))) =
      some (pastedTextPrompt (jsTrim T) ('#' :: natDigits (v.counter + 1)),
            '#' :: natDigits (v.counter + 1)) := by
    rw [hprompt]
    have := parsePastedAt_token (natDigits (v.counter + 1))
      (natDigits (lineCount (jsTrim T))) [] hnd1 hnd1d hnd2 hnd2d
    simpa using this
  have hentries : (handleTextPaste v T).1.entries =
      ('#' :: natDigits (v.counter + 1), jsTrim T) :: v.entries := by
    simp [handleTextPaste, hempty]
  have hne2 : pastedTextPrompt (jsTrim T) ('#' :: natDigits (v.counter + 1)) ≠ [] := by
    rw [hprompt]
    simp
  have hwhole := matchAllAux_whole parsePastedAt
    (pastedTextPrompt (jsTrim T) ('#' :: natDigits (v.counter + 1)))
    ('#' :: natDigits (v.counter + 1)) hne2 hparse
  constructor
  · simp [handleTextPaste, hempty]
  · rw [expandPastedText, hwhole, hentries]
    rw [List.foldl_cons, List.foldl_nil]
    have hlook : List.lookup ('#' :: natDigits (v.counter + 1))
        (('#' :: natDigits (v.counter + 1), jsTrim T) :: v.entries) = some (jsTrim T) := by
      simp [List.lookup]
    dsimp only
    rw [hlook]
    exact jsReplace_self _ _ hd

/-- C2 witness: the amended round trip evaluated at a concrete
eight-hundred-letter paste. -/
theorem handleTextPaste_roundtrip_witness :
    (800 ≤ (List.replicate 800 'a').length ∧ jsTrim (List.replicate 800 'a') ≠ [] ∧
      dollarFree (jsTrim (List.replicate 800 'a')) = true) ∧
    expandPastedText (handleTextPaste pasteVaultInit (List.replicate 800 'a')).1.entries
      (pastedTextPrompt (jsTrim (List.replicate 800 'a')) ('#' :: natDigits 1)) =
      jsTrim (List.replicate 800 'a') :=
  ⟨⟨by decide, by decide, by decide⟩,
   (handleTextPaste_roundtrip pasteVaultInit (List.replicate 800 'a')
     (by decide) (by decide) (by decide)).2⟩

/-- C10: each vault assigns ids from its own counter, one increment per
stored payload starting at one; after one text paste and one image paste
from fresh vaults both vaults hold an entry keyed by hash-one, so ids are
unique only within one vault. -/
theorem pasteVault_counters :
    (∀ (v : PasteVault) (T : Str), jsTrim T ≠ [] →
      (handleTextPaste v T).1.counter = v.counter + 1 ∧
      ∃ prompt, (handleTextPaste v T).2 = some ('#' :: natDigits (v.counter + 1), prompt)) ∧
    (∀ (v : PasteVault) (b : Str),
      (handleImagePaste v b).1.counter = v.counter + 1 ∧
      (handleImagePaste v b).2 = '#' :: natDigits (v.counter + 1)) ∧
    (∀ (T img : Str), jsTrim T ≠ [] →
      List.lookup ("#1".data) (handleTextPaste pasteVaultInit T).1.entries = some (jsTrim T) ∧
      List.lookup ("#1".data) (handleImagePaste pasteVaultInit img).1.entries = some img) := by
  have hkey : ('#' :: natDigits 1) = "#1".data := rfl
  refine ⟨?_, ?_, ?_⟩
  · intro v T hne
    have hempty : (jsTrim T).isEmpty = false := by
      cases h : jsTrim T
      · exact absurd h hne
      · rfl
    constructor
    · simp [handleTextPaste, hempty]
    · exact ⟨pastedTextPrompt (jsTrim T) ('#' :: natDigits (v.counter + 1)),
        by simp [handleTextPaste, hempty]⟩
  · intro v b
    constructor
    · rfl
    · rfl
  · intro T img hne
    have hempty : (jsTrim T).isEmpty = false := by
      cases h : jsTrim T
      · exact absurd h hne
      · rfl
    have hb : (['1'] == natDigits 1) = true := by decide
    constructor
    · simp [handleTextPaste, hempty, pasteVaultInit, List.lookup, hb]
    · simp [handleImagePaste, pasteVaultInit, List.lookup, hb]

/-- C10 witness: concrete one-text-paste plus one-image-paste scenario. -/
theorem pasteVault_counters_witness :
    jsTrim ("hello".data) ≠ [] ∧
    List.lookup ("#1".data)
      (handleTextPaste pasteVaultInit ("hello".data)).1.entries = some (jsTrim ("hello".data)) ∧
    List.lookup ("#1".data)
      (handleImagePaste pasteVaultInit ("datauri".data)).1.entries = some ("datauri".data) :=
  ⟨by decide, (pasteVault_counters.2.2 ("hello".data) ("datauri".data) (by decide)).1,
    (pasteVault_counters.2.2 ("hello".data) ("datauri".data) (by decide)).2⟩

/-- Index value of the selection cycler: a JavaScript number that is either
an integer or the not-a-number value produced by a modulo with zero. -/
inductive JsIdx where
  | nan : JsIdx
  | num : Int → JsIdx
deriving DecidableEq, Repr

/-- State of the selection cycler: the list it indexes and the selected
index. -/
structure NavState (α : Type) where
  items : List α
  idx : JsIdx

/-- Operations on the selection cycler: the two wrap-around moves, the reset
and a change of the underlying list. -/
inductive NavOp (α : Type) where
  | next : NavOp α
  | prev : NavOp α
  | reset : NavOp α
  | setItems : List α → NavOp α

/-- JavaScript remainder of a shifted index by the list length: the
truncated remainder, and the not-a-number value when the length is zero or
the index is already not a number. -/
def jsModIdx (i : JsIdx) (shift : Int) (len : Nat) : JsIdx :=
  match i with
  | .nan => .nan
  | .num n => if len = 0 then .nan else .num ((n + shift).tmod (len : Int))

/-- The clamping effect of the cycler: when the numeric index is at or past
the list length it is set to the last position (or zero); the comparison is
false for the not-a-number value, which therefore survives. -/
def clampEffect (s : NavState α) : NavState α :=
  match s.idx with
  | .nan => s
  | .num n =>
    if (s.items.length : Int) ≤ n then
      { s with idx := .num (max 0 ((s.items.length : Int) - 1)) }
    else s

/-- The raw state update of one cycler operation. -/
def navApply (s : NavState α) : NavOp α → NavState α
  | .next => { s with idx := jsModIdx s.idx 1 s.items.length }
  | .prev => { s with idx := jsModIdx s.idx ((s.items.length : Int) - 1) s.items.length }
  | .reset => { s with idx := .num 0 }
  | .setItems l => { s with items := l }

/-- One cycler step: the operation followed by the clamping effect that
React runs after the state change. -/
def navStep (s : NavState α) (op : NavOp α) : NavState α :=
  clampEffect (navApply s op)

/-- A run of cycler operations. -/
def navRun (s : NavState α) (ops : List (NavOp α)) : NavState α :=
  ops.foldl navStep s

/-- The mounted cycler: index zero, clamped once. -/
def navInit (l : List α) : NavState α :=
  clampEffect { items := l, idx := .num 0 }

/-- Guard of one operation: the two wrap-around moves require a nonempty
list. -/
def navOpGuard (s : NavState α) : NavOp α → Bool
  | .next => !s.items.isEmpty
  | .prev => !s.items.isEmpty
  | _ => true

/-- Guard of a run: the two wrap-around moves are only issued while the
list is nonempty (the orchestrator only navigates a visible, hence
nonempty, suggestion list). -/
def navGuarded (s : NavState α) : List (NavOp α) → Bool
  | [] => true
  | op :: rest => navOpGuard s op && navGuarded (navStep s op) rest

/-- The invariant claimed for the cycler: on an empty list the index is
zero, on a nonempty list it is an integer within bounds. -/
def NavInv (s : NavState α) : Prop :=
  (s.items = [] ∧ s.idx = .num 0) ∨
  (∃ n : Int, s.idx = .num n ∧ 0 ≤ n ∧ n < s.items.length)

/-- C5 counterexample: one navigate-next on an empty list drives the index
to the not-a-number value, which is not zero and which the clamp effect
never repairs. -/
theorem useListNavigation_counterexample :
    (navRun (navInit ([] : List Nat)) [NavOp.next]).items = [] ∧
    (navRun (navInit ([] : List Nat)) [NavOp.next]).idx ≠ JsIdx.num 0 := by
  constructor
  · rfl
  · decide

/-- One guarded cycler step preserves the invariant. -/
theorem navStep_inv {α : Type} {s : NavState α} {op : NavOp α}
    (hinv : NavInv s) (hg : navOpGuard s op = true) : NavInv (navStep s op) := by
  cases op with
  | next =>
    have hne : s.items ≠ [] := by
      rw [navOpGuard] at hg
      cases h : s.items
      · rw [h] at hg; simp at hg
      · simp [h]
    obtain ⟨n, hidx, hn0, hnlt⟩ : ∃ n : Int, s.idx = .num n ∧ 0 ≤ n ∧ n < s.items.length := by
      rcases hinv with ⟨hempty, _⟩ | h
      · exact absurd hempty hne
      · exact h
    have hlen : s.items.length ≠ 0 := by
      cases h : s.items
      · exact absurd h hne
      · simp [h]
    have hm0 : 0 ≤ (n + 1).tmod (s.items.length : Int) :=
      Int.tmod_nonneg _ (by omega)
    have hmlt : (n + 1).tmod (s.items.length : Int) < (s.items.length : Int) :=
      Int.tmod_lt_of_pos _ (by exact_mod_cast Nat.pos_of_ne_zero hlen)
    rw [navStep, navApply, hidx, jsModIdx, if_neg hlen, clampEffect]
    dsimp only
    rw [if_neg (by omega)]
    exact Or.inr ⟨(n + 1).tmod (s.items.length : Int), rfl, hm0, hmlt⟩
  | prev =>
    have hne : s.items ≠ [] := by
      rw [navOpGuard] at hg
      cases h : s.items
      · rw [h] at hg; simp at hg
      · simp [h]
    obtain ⟨n, hidx, hn0, hnlt⟩ : ∃ n : Int, s.idx = .num n ∧ 0 ≤ n ∧ n < s.items.length := by
      rcases hinv with ⟨hempty, _⟩ | h
      · exact absurd hempty hne
      · exact h
    have hlen : s.items.length ≠ 0 := by
      cases h : s.items
      · exact absurd h hne
      · simp [h]
    have hlen1 : (1 : Int) ≤ (s.items.length : Int) := by
      have := Nat.pos_of_ne_zero hlen
      exact_mod_cast this
    have hm0 : 0 ≤ (n + ((s.items.length : Int) - 1)).tmod (s.items.length : Int) :=
      Int.tmod_nonneg _ (by omega)
    have hmlt : (n + ((s.items.length : Int) - 1)).tmod (s.items.length : Int) <
        (s.items.length : Int) :=
      Int.tmod_lt_of_pos _ (by omega)
    rw [navStep, navApply, hidx, jsModIdx, if_neg hlen, clampEffect]
    dsimp only
    rw [if_neg (not_le.mpr hmlt)]
    exact Or.inr ⟨_, rfl, hm0, hmlt⟩
  | reset =>
    rw [navStep, navApply, clampEffect]
    dsimp only
    by_cases hempty : s.items.length = 0
    · rw [if_pos (by omega)]
      refine Or.inl ⟨List.length_eq_zero.mp hempty, ?_⟩
      have : max (0 : Int) ((s.items.length : Int) - 1) = 0 := by
        rw [hempty]
        decide
      simp [this]
    · rw [if_neg (by omega)]
      exact Or.inr ⟨0, rfl, le_refl 0, by show (0 : Int) < (s.items.length : Int); omega⟩
  | setItems l =>
    obtain ⟨n, hidx, hn0⟩ : ∃ n : Int, s.idx = .num n ∧ 0 ≤ n := by
      rcases hinv with ⟨_, hz⟩ | ⟨n, hidx, hn0, _⟩
      · exact ⟨0, hz, le_refl 0⟩
      · exact ⟨n, hidx, hn0⟩
    rw [navStep, navApply, clampEffect]
    dsimp only
    rw [hidx]
    dsimp only
    by_cases hcl : (l.length : Int) ≤ n
    · rw [if_pos hcl]
      by_cases hl0 : l.length = 0
      · refine Or.inl ⟨List.length_eq_zero.mp hl0, ?_⟩
        have hmax : max (0 : Int) ((l.length : Int) - 1) = 0 := by
          rw [hl0]
          decide
        rw [hmax]
      · have h1 : (1 : Int) ≤ (l.length : Int) := by
          have := Nat.pos_of_ne_zero hl0
          exact_mod_cast this
        have hmax : max (0 : Int) ((l.length : Int) - 1) = (l.length : Int) - 1 :=
          max_eq_right (by omega)
        rw [hmax]
        exact Or.inr ⟨(l.length : Int) - 1, rfl, by omega,
          by show (l.length : Int) - 1 < (l.length : Int); omega⟩
    · rw [if_neg hcl]
      exact Or.inr ⟨n, rfl, hn0, by show n < (l.length : Int); omega⟩

/-- A freshly mounted cycler satisfies the invariant. -/
theorem navInit_inv {α : Type} (l : List α) : NavInv (navInit l) := by
  rw [navInit, clampEffect]
  dsimp only
  by_cases hl0 : l.length = 0
  · rw [if_pos (by omega)]
    refine Or.inl ⟨List.length_eq_zero.mp hl0, ?_⟩
    have hmax : max (0 : Int) ((l.length : Int) - 1) = 0 := by
      rw [hl0]
      decide
    rw [hmax]
  · rw [if_neg (by omega)]
    exact Or.inr ⟨0, rfl, le_refl 0, by show (0 : Int) < (l.length : Int); omega⟩

/-- A guarded run preserves the invariant. -/
theorem navRun_inv {α : Type} :
    ∀ (ops : List (NavOp α)) (s : NavState α),
      NavInv s → navGuarded s ops = true → NavInv (navRun s ops) := by
  intro ops
  induction ops with
  | nil => intro s h _; exact h
  | cons op rest ih =>
    intro s h hg
    rw [navGuarded, Bool.and_eq_true] at hg
    rw [navRun, List.foldl_cons]
    exact ih (navStep s op) (navStep_inv h hg.1) hg.2

/-- C5 amended: for every starting list and every sequence of cycler
operations in which the wrap-around moves only occur while the list is
nonempty, the selected index stays an integer within the list bounds, zero
on an empty list; in particular a list change that shrinks the list below
the index clamps it without a reset. -/
theorem useListNavigation_clamped {α : Type} (l : List α) (ops : List (NavOp α))
    (hg : navGuarded (navInit l) ops = true) :
    NavInv (navRun (navInit l) ops) :=
  navRun_inv ops (navInit l) (navInit_inv l) hg

/-- C5 witness: two forward moves over a three-element list, then a shrink
to one element; the guard holds and the invariant follows. -/
theorem useListNavigation_clamped_witness :
    navGuarded (navInit [10, 20, 30]) [NavOp.next, NavOp.next, NavOp.setItems [9]] = true ∧
    NavInv (navRun (navInit [10, 20, 30]) [NavOp.next, NavOp.next, NavOp.setItems [9]]) :=
  ⟨by decide, useListNavigation_clamped [10, 20, 30]
    [NavOp.next, NavOp.next, NavOp.setItems [9]] (by decide)⟩

/-- State of the double-press detector: the time of the pending previous
press and the due time of the armed single-fire timer. -/
structure DPState where
  lastPress : Option Nat
  timerFire : Option Nat
deriving DecidableEq, Repr

/-- Observable callback invocations of the detector. -/
inductive DPOut where
  | double : DPOut
  | single : DPOut
deriving DecidableEq, Repr

/-- Fresh detector: no pending press, no armed timer. -/
def dpInit : DPState := ⟨none, none⟩

/-- JavaScript truthiness of the stored press time: null is falsy and so is
the number zero. -/
def truthyTime : Option Nat → Bool
  | none => false
  | some 0 => false
  | some (_ + 1) => true

/-- Timer delivery when time reaches a point: an armed timer whose due time
has arrived fires the single callback and clears the state. -/
def dpAdvance (s : DPState) (t : Nat) : DPState × List DPOut :=
  match s.timerFire with
  | some ft => if ft ≤ t then (⟨none, none⟩, [DPOut.single]) else (s, [])
  | none => (s, [])

/-- Embedding of handlePress at a given now: a truthy previous press within
the timeout fires the double callback at once and clears all state;
otherwise the press is recorded and the single-fire timer is re-armed. -/
def dpPress (timeout : Nat) (s : DPState) (now : Nat) : DPState × List DPOut :=
  if truthyTime s.lastPress && decide (now - s.lastPress.getD 0 < timeout) then
    (⟨none, none⟩, [DPOut.double])
  else
    (⟨some now, some (now + timeout)⟩, [])

/-- A run of presses at increasing times, delivering due timers before each
press. -/
def dpEvents (timeout : Nat) (s : DPState) : List Nat → DPState × List DPOut
  | [] => (s, [])
  | t :: ts =>
    match dpAdvance s t with
    | (s1, o1) =>
      match dpPress timeout s1 t with
      | (s2, o2) =>
        match dpEvents timeout s2 ts with
        | (s3, o3) => (s3, o1 ++ o2 ++ o3)

/-- A full scenario: the presses, then the passage of time up to a horizon
at which any still-armed timer past due fires. -/
def dpRun (timeout : Nat) (presses : List Nat) (horizon : Nat) : DPState × List DPOut :=
  match dpEvents timeout dpInit presses with
  | (s1, o1) =>
    match dpAdvance s1 horizon with
    | (s2, o2) => (s1, o1 ++ o2).2 |> fun outs => (s2, outs)

/-- A positive stored press time is truthy. -/
theorem truthyTime_pos {n : Nat} (h : 0 < n) : truthyTime (some n) = true := by
  match n, h with
  | k + 1, _ => rfl

/-- C7: two presses less than the timeout apart fire the double callback
exactly once and the single callback never, at any later horizon; one press
followed by silence beyond the timeout fires the single callback exactly
once. -/
theorem useDoublePress_spec (t1 t2 T : Nat) (h1 : 0 < t1) (h12 : t1 ≤ t2)
    (hlt : t2 - t1 < 500) :
    (dpRun 500 [t1, t2] T).2 = [DPOut.double] ∧
    (t1 + 500 ≤ T → (dpRun 500 [t1] T).2 = [DPOut.single]) := by
  have hadv1 : dpAdvance dpInit t1 = (dpInit, []) := rfl
  have hpress1 : dpPress 500 dpInit t1 = (⟨some t1, some (t1 + 500)⟩, []) := by
    rw [dpPress]
    rw [if_neg]
    simp [dpInit, truthyTime]
  constructor
  · have hadv2 : dpAdvance ⟨some t1, some (t1 + 500)⟩ t2 =
        (⟨some t1, some (t1 + 500)⟩, []) := by
      rw [dpAdvance]
      dsimp only
      rw [if_neg (by omega)]
    have hpress2 : dpPress 500 ⟨some t1, some (t1 + 500)⟩ t2 =
        (⟨none, none⟩, [DPOut.double]) := by
      rw [dpPress]
      rw [if_pos]
      rw [truthyTime_pos h1]
      simpa using hlt
    rw [dpRun, dpEvents, hadv1]
    dsimp only
    rw [hpress1]
    dsimp only
    rw [dpEvents, hadv2]
    dsimp only
    rw [hpress2]
    dsimp only
    rw [dpEvents]
    dsimp only
    rw [dpAdvance]
    rfl
  · intro hT
    have hadvT : dpAdvance ⟨some t1, some (t1 + 500)⟩ T = (⟨none, none⟩, [DPOut.single]) := by
      rw [dpAdvance]
      dsimp only
      rw [if_pos (by omega)]
    rw [dpRun, dpEvents, hadv1]
    dsimp only
    rw [hpress1]
    dsimp only
    rw [dpEvents]
    dsimp only
    rw [hadvT]
    rfl

/-- C7 witness: presses at one hundred and three hundred milliseconds give
one double fire; a lone press at one hundred observed at seven hundred
gives one single fire. -/
theorem useDoublePress_spec_witness :
    (0 < 100 ∧ 100 ≤ 300 ∧ 300 - 100 < 500) ∧
    (dpRun 500 [100, 300] 700).2 = [DPOut.double] ∧
    (dpRun 500 [100] 700).2 = [DPOut.single] :=
  ⟨⟨by decide, by decide, by decide⟩,
   (useDoublePress_spec 100 300 700 (by decide) (by decide) (by decide)).1,
   (useDoublePress_spec 100 300 700 (by decide) (by decide) (by decide)).2 (by decide)⟩

/-- A command offered by the slash-command engine. -/
structure SlashCmd where
  name : Str
  description : Str
deriving DecidableEq, Repr

/-- Embedding of the JavaScript toLowerCase operation, character by
character. -/
def jsToLower (s : Str) : Str :=
  s.map Char.toLower

/-- Embedding of the JavaScript includes test: some suffix of the string
starts with the searched text. -/
def jsIncludes (s sub : Str) : Bool :=
  if sub.isPrefixOf s then true
  else match s with
    | [] => false
    | _ :: rest => jsIncludes rest sub

/-- Embedding of the JavaScript startsWith test. -/
def jsStartsWith (s p : Str) : Bool :=
  p.isPrefixOf s

/-- The lower-cased trimmed query after the slash. -/
def slashQueryOf (value : Str) : Str :=
  jsTrim (jsToLower (value.drop 1))

/-- The filter of the suggestion list: the lower-cased name starts with the
query or the lower-cased description contains it. -/
def cmdMatches (pfx : Str) (cmd : SlashCmd) : Bool :=
  jsStartsWith (jsToLower cmd.name) pfx || jsIncludes (jsToLower cmd.description) pfx

/-- The name-prefix test used by the ranking comparator. -/
def cmdNameMatch (pfx : Str) (cmd : SlashCmd) : Bool :=
  jsStartsWith (jsToLower cmd.name) pfx

/-- The ranking comparator of the suggestion sort: name-prefix matches
ahead of description-only matches, ties left alone. -/
def cmdCompare (pfx : Str) (a b : SlashCmd) : Int :=
  if cmdNameMatch pfx a && !cmdNameMatch pfx b then -1
  else if !cmdNameMatch pfx a && cmdNameMatch pfx b then 1
  else 0

/-- Stable insertion of one element with respect to a comparator: the
element moves left past exactly the elements it compares strictly below. -/
def insertCmp {α : Type} (cmp : α → α → Int) (x : α) : List α → List α
  | [] => [x]
  | y :: ys => if cmp x y < 0 then x :: y :: ys else y :: insertCmp cmp x ys

/-- A stable comparator sort (the ECMAScript sort of a consistent
comparator is stable, and all stable sorts of a consistent comparator
agree). -/
def jsSort {α : Type} (cmp : α → α → Int) (l : List α) : List α :=
  l.foldl (fun acc x => insertCmp cmp x acc) []

/-- Embedding of the suggestions memo of useSlashCommands: empty off a
slash-led buffer, the full cache on an empty query, otherwise the filtered
list ranked by the comparator. -/
def slashSuggestions (value : Str) (commands : List SlashCmd) : List SlashCmd :=
  if value.head? != some '/' then []
  else
    let pfx := slashQueryOf value
    if pfx.isEmpty then commands
    else jsSort (cmdCompare pfx) (commands.filter (cmdMatches pfx))

example : slashSuggestions ("/dep".data)
      [⟨"other".data, "dep tool".data⟩, ⟨"deploy".data, "push".data⟩,
       ⟨"deps".data, "list".data⟩] =
    [⟨"deploy".data, "push".data⟩, ⟨"deps".data, "list".data⟩,
     ⟨"other".data, "dep tool".data⟩] := by decide

/-- Inserting into a partitioned list with a two-class comparator places a
key-holding element right after the key block and any other element at the
very end. -/
theorem insertCmp_partition {α : Type} (key : α → Bool) (cmp : α → α → Int)
    (hcmp : ∀ a b, cmp a b < 0 ↔ (key a = true ∧ key b = false)) (x : α) :
    ∀ (P Q : List α), (∀ y ∈ P, key y = true) → (∀ y ∈ Q, key y = false) →
      insertCmp cmp x (P ++ Q) =
        if key x then P ++ x :: Q else P ++ Q ++ [x] := by
  intro P
  induction P with
  | nil =>
    intro Q _ hQ
    induction Q with
    | nil => cases hx : key x <;> simp [insertCmp, hx]
    | cons q Q ihQ =>
      simp only [List.nil_append] at ihQ ⊢
      rw [insertCmp]
      by_cases hx : key x = true
      · rw [if_pos ((hcmp x q).mpr ⟨hx, hQ q (List.mem_cons_self q Q)⟩)]
        rw [hx]
        simp
      · have hx2 : key x = false := by
          cases h : key x
          · rfl
          · exact absurd h hx
        rw [if_neg]
        · rw [ihQ (fun y hy => hQ y (List.mem_cons_of_mem q hy))]
          rw [hx2]
          simp
        · intro hlt
          exact hx ((hcmp x q).mp hlt).1
  | cons p P ihP =>
    intro Q hP hQ
    rw [List.cons_append, insertCmp]
    rw [if_neg]
    · rw [ihP Q (fun y hy => hP y (List.mem_cons_of_mem p hy)) hQ]
      cases hx : key x <;> simp
    · intro hlt
      have := ((hcmp x p).mp hlt).2
      rw [hP p (List.mem_cons_self p P)] at this
      exact absurd this (by decide)

/-- The insertion-fold with a two-class comparator computes the stable
partition of the input. -/
theorem jsSort_partition {α : Type} (key : α → Bool) (cmp : α → α → Int)
    (hcmp : ∀ a b, cmp a b < 0 ↔ (key a = true ∧ key b = false)) :
    ∀ (l P Q : List α), (∀ y ∈ P, key y = true) → (∀ y ∈ Q, key y = false) →
      List.foldl (fun acc x => insertCmp cmp x acc) (P ++ Q) l =
        (P ++ l.filter (fun a => key a)) ++ (Q ++ l.filter (fun a => !key a)) := by
  intro l
  induction l with
  | nil =>
    intro P Q _ _
    simp
  | cons x l ih =>
    intro P Q hP hQ
    rw [List.foldl_cons]
    rw [insertCmp_partition key cmp hcmp x P Q hP hQ]
    by_cases hx : key x = true
    · rw [if_pos hx]
      have hPx : ∀ y ∈ P ++ [x], key y = true := by
        intro y hy
        rcases List.mem_append.mp hy with hy | hy
        · exact hP y hy
        · rw [List.mem_singleton.mp hy]
          exact hx
      have : P ++ x :: Q = (P ++ [x]) ++ Q := by simp
      rw [this, ih (P ++ [x]) Q hPx hQ]
      simp [List.filter_cons, hx]
    · have hx2 : key x = false := by
        cases h : key x
        · rfl
        · exact absurd h hx
      rw [if_neg hx]
      have hQx : ∀ y ∈ Q ++ [x], key y = false := by
        intro y hy
        rcases List.mem_append.mp hy with hy | hy
        · exact hQ y hy
        · rw [List.mem_singleton.mp hy]
          exact hx2
      have : P ++ Q ++ [x] = P ++ (Q ++ [x]) := by simp
      rw [this, ih P (Q ++ [x]) hP hQx]
      simp [List.filter_cons, hx2]

/-- The two-class property of the suggestion comparator. -/
theorem cmdCompare_two_class (pfx : Str) (a b : SlashCmd) :
    cmdCompare pfx a b < 0 ↔ (cmdNameMatch pfx a = true ∧ cmdNameMatch pfx b = false) := by
  cases ha : cmdNameMatch pfx a <;> cases hb : cmdNameMatch pfx b <;>
    simp [cmdCompare, ha, hb]

/-- C6: on a slash-led buffer, an empty query yields the whole cached list;
a nonempty query yields exactly the commands whose lower-cased name starts
with the query or whose lower-cased description contains it, every
name-prefix match ahead of every description-only match, the order inside
each group that of the cache. -/
theorem useSlashCommands_suggestions (value : Str) (commands : List SlashCmd)
    (hslash : value.head? = some '/') :
    (slashQueryOf value = [] → slashSuggestions value commands = commands) ∧
    (slashQueryOf value ≠ [] →
      slashSuggestions value commands =
        (commands.filter (cmdMatches (slashQueryOf value))).filter
            (fun c => cmdNameMatch (slashQueryOf value) c) ++
          (commands.filter (cmdMatches (slashQueryOf value))).filter
            (fun c => !cmdNameMatch (slashQueryOf value) c)) := by
  have hcond : (value.head? != some '/') = false := by
    simp [hslash]
  constructor
  · intro hq
    rw [slashSuggestions, hcond]
    simp only [Bool.false_eq_true, if_false]
    rw [if_pos]
    rw [hq]
    rfl
  · intro hq
    rw [slashSuggestions, hcond]
    simp only [Bool.false_eq_true, if_false]
    rw [if_neg]
    · rw [jsSort]
      have := jsSort_partition (cmdNameMatch (slashQueryOf value))
        (cmdCompare (slashQueryOf value)) (cmdCompare_two_class (slashQueryOf value))
        (commands.filter (cmdMatches (slashQueryOf value))) [] []
        (by intro y hy; exact absurd hy (List.not_mem_nil y))
        (by intro y hy; exact absurd hy (List.not_mem_nil y))
      simpa using this
    · intro hempty
      cases h : slashQueryOf value
      · exact hq h
      · rw [h] at hempty
        simp at hempty

/-- C6 witness: the deploy and deps name-prefix matches rank ahead of a
description-only match for the query dep, keeping the cache order within
each group. -/
theorem useSlashCommands_suggestions_witness :
    (("/dep".data).head? = some '/' ∧ slashQueryOf ("/dep".data) ≠ []) ∧
    slashSuggestions ("/dep".data)
        [⟨"other".data, "a dep tool".data⟩, ⟨"deploy".data, "push".data⟩,
         ⟨"deps".data, "list".data⟩] =
      [⟨"deploy".data, "push".data⟩, ⟨"deps".data, "list".data⟩,
       ⟨"other".data, "a dep tool".data⟩] :=
  ⟨⟨by decide, by decide⟩, by
    have h := (useSlashCommands_suggestions ("/dep".data)
      [⟨"other".data, "a dep tool".data⟩, ⟨"deploy".data, "push".data⟩,
       ⟨"deps".data, "list".data⟩] (by decide)).2 (by decide)
    rw [h]
    decide⟩

/-- State of the file-suggestion fetch effect: the cached path list, the
dependency tuple of the last effect run (active-trigger flag and cache
length) and the number of fetch calls issued. -/
structure FileEngState where
  paths : List Str
  lastDeps : Option (Bool × Nat)
  fetches : Nat
deriving DecidableEq, Repr

/-- Events seen by the file-suggestion fetch effect: a render with the
current active-trigger flag, or the resolution of a fetch that populates
the cache. -/
inductive FileEv where
  | render : Bool → FileEv
  | resolve : List Str → FileEv
deriving DecidableEq, Repr

/-- Fresh file-suggestion engine: empty cache, effect not yet run. -/
def fileEngInit : FileEngState := ⟨[], none, 0⟩

/-- One step of the file-suggestion fetch effect: a render re-runs the
effect only when the dependency tuple changed, and the effect issues a
fetch when the trigger is active and the cache empty; a resolution writes
the fetched list into the cache. -/
def fileStep (s : FileEngState) : FileEv → FileEngState
  | .render hasQuery =>
    if s.lastDeps = some (hasQuery, s.paths.length) then s
    else
      { s with
        lastDeps := some (hasQuery, s.paths.length)
        fetches := s.fetches + (if hasQuery && decide (s.paths.length = 0) then 1 else 0) }
  | .resolve l => { s with paths := l }

/-- A run of file-suggestion effect events. -/
def fileRun (s : FileEngState) (evs : List FileEv) : FileEngState :=
  evs.foldl fileStep s

/-- State of the slash-command fetch effect: cached commands, dependency
tuple (buffer value and cache length) of the last run, fetch count. -/
structure SlashEngState where
  commands : List SlashCmd
  lastDeps : Option (Str × Nat)
  fetches : Nat
deriving DecidableEq, Repr

/-- Events of the slash-command fetch effect. -/
inductive SlashEv where
  | render : Str → SlashEv
  | resolve : List SlashCmd → SlashEv
deriving DecidableEq, Repr

/-- Fresh slash-command engine. -/
def slashEngInit : SlashEngState := ⟨[], none, 0⟩

/-- One step of the slash-command fetch effect: on a dependency change the
effect runs and fetches when the buffer is exactly the bare slash and the
cache is empty. -/
def slashStep (s : SlashEngState) : SlashEv → SlashEngState
  | .render value =>
    if s.lastDeps = some (value, s.commands.length) then s
    else
      { s with
        lastDeps := some (value, s.commands.length)
        fetches := s.fetches +
          (if value == ['/'] && decide (s.commands.length = 0) then 1 else 0) }
  | .resolve l => { s with commands := l }

/-- A run of slash-command effect events. -/
def slashRun (s : SlashEngState) (evs : List SlashEv) : SlashEngState :=
  evs.foldl slashStep s

/-- C9 counterexample: deactivating and reactivating the trigger before the
first fetch resolves changes the effect dependencies twice, and the still
empty cache lets a second fetch go out. -/
theorem fetchOnce_counterexample :
    ([FileEv.render true, FileEv.render false, FileEv.render true].all
      (fun e => match e with | FileEv.resolve _ => false | _ => true)) = true ∧
    (fileRun fileEngInit [FileEv.render true, FileEv.render false, FileEv.render true]).fetches
      = 2 := by
  constructor
  · decide
  · decide

/-- The post-first-fetch fixed point of the file engine under a constantly
active trigger. -/
theorem fileStep_fixed :
    fileStep ⟨[], some (true, 0), 1⟩ (FileEv.render true) = ⟨[], some (true, 0), 1⟩ := by
  decide

/-- The post-first-fetch fixed point of the slash engine under the bare
slash buffer. -/
theorem slashStep_fixed :
    slashStep ⟨[], some (['/'], 0), 1⟩ (SlashEv.render ['/']) = ⟨[], some (['/'], 0), 1⟩ := by
  decide

/-- C9 amended: while the trigger stays continuously active (the file
engine keeps rendering with an active match, the slash engine with the bare
slash buffer) and the fetch has not resolved, exactly one fetch is issued:
none before the first render, one after it, and re-renders do not issue a
duplicate. -/
theorem fetchOnce_while_active :
    (∀ evs : List FileEv, (∀ e ∈ evs, e = FileEv.render true) →
      (fileRun fileEngInit evs).fetches = if evs = [] then 0 else 1) ∧
    (∀ evs : List SlashEv, (∀ e ∈ evs, e = SlashEv.render ['/']) →
      (slashRun slashEngInit evs).fetches = if evs = [] then 0 else 1) := by
  have hfile : ∀ evs : List FileEv, (∀ e ∈ evs, e = FileEv.render true) →
      fileRun ⟨[], some (true, 0), 1⟩ evs = ⟨[], some (true, 0), 1⟩ := by
    intro evs
    induction evs with
    | nil => intro _; rfl
    | cons e rest ih =>
      intro h
      rw [fileRun, List.foldl_cons, h e (List.mem_cons_self e rest), fileStep_fixed]
      exact ih (fun x hx => h x (List.mem_cons_of_mem e hx))
  have hslash : ∀ evs : List SlashEv, (∀ e ∈ evs, e = SlashEv.render ['/']) →
      slashRun ⟨[], some (['/'], 0), 1⟩ evs = ⟨[], some (['/'], 0), 1⟩ := by
    intro evs
    induction evs with
    | nil => intro _; rfl
    | cons e rest ih =>
      intro h
      rw [slashRun, List.foldl_cons, h e (List.mem_cons_self e rest), slashStep_fixed]
      exact ih (fun x hx => h x (List.mem_cons_of_mem e hx))
  constructor
  · intro evs h
    cases evs with
    | nil => rfl
    | cons e rest =>
      rw [if_neg (by simp)]
      rw [fileRun, List.foldl_cons, h e (List.mem_cons_self e rest)]
      have hstep : fileStep fileEngInit (FileEv.render true) = ⟨[], some (true, 0), 1⟩ := by
        decide
      rw [hstep]
      rw [show List.foldl fileStep (⟨[], some (true, 0), 1⟩ : FileEngState) rest =
        fileRun ⟨[], some (true, 0), 1⟩ rest from rfl]
      rw [hfile rest (fun x hx => h x (List.mem_cons_of_mem e hx))]
  · intro evs h
    cases evs with
    | nil => rfl
    | cons e rest =>
      rw [if_neg (by simp)]
      rw [slashRun, List.foldl_cons, h e (List.mem_cons_self e rest)]
      have hstep : slashStep slashEngInit (SlashEv.render ['/']) = ⟨[], some (['/'], 0), 1⟩ := by
        decide
      rw [hstep]
      rw [show List.foldl slashStep (⟨[], some (['/'], 0), 1⟩ : SlashEngState) rest =
        slashRun ⟨[], some (['/'], 0), 1⟩ rest from rfl]
      rw [hslash rest (fun x hx => h x (List.mem_cons_of_mem e hx))]

/-- C9 witness: two consecutive active renders of each engine issue exactly
one fetch. -/
theorem fetchOnce_while_active_witness :
    (∀ e ∈ [FileEv.render true, FileEv.render true], e = FileEv.render true) ∧
    (fileRun fileEngInit [FileEv.render true, FileEv.render true]).fetches = 1 ∧
    (slashRun slashEngInit [SlashEv.render ['/'], SlashEv.render ['/']]).fetches = 1 :=
  ⟨by decide,
   by
    have h := fetchOnce_while_active.1 [FileEv.render true, FileEv.render true] (by decide)
    simpa using h,
   by
    have h := fetchOnce_while_active.2 [SlashEv.render ['/'], SlashEv.render ['/']] (by decide)
    simpa using h⟩

/-- Kind of trigger that produced a file-suggestion query. -/
inductive Trigger where
  | at : Trigger
  | tab : Trigger
deriving DecidableEq, Repr

/-- Result of one trigger detector evaluation, the MatchResult record of
the source; an inactive detector carries the minus-one start index. -/
structure MatchResult where
  hasQuery : Bool
  fullMatch : Str
  query : Str
  startIndex : Int
  triggerType : Option Trigger
deriving DecidableEq, Repr

/-- The inactive detector result. -/
def noMatch : MatchResult := ⟨false, [], [], -1, none⟩

/-- The group matched right after an at sign: a quoted run when a closing
quote exists (ordered alternation tries the quoted branch first), otherwise
the maximal nonblank run. -/
def atGroup (afterAt : Str) : Str :=
  match afterAt with
  | '"' :: rest =>
    if rest.contains '"' then '"' :: rest.takeWhile (fun c => c != '"') ++ ['"']
    else '"' :: rest.takeWhile (fun c => !jsWhitespace c)
  | _ => afterAt.takeWhile (fun c => !jsWhitespace c)

/-- Global scan for at-trigger matches over the text before the cursor: a
match needs an at sign at the very start or right after a whitespace
character, and scanning resumes past each match; the last match found is
kept, as in the source. -/
def atScanCore : Nat → Str → Bool → Nat → Option (Nat × Str) → Option (Nat × Str)
  | 0, _, _, _, acc => acc
  | _ + 1, [], _, _, acc => acc
  | f + 1, c :: rest, isStart, pos, acc =>
    if c = '@' && isStart then
      let grp := '@' :: atGroup rest
      atScanCore f ((c :: rest).drop grp.length) false (pos + grp.length) (some (pos, grp))
    else if jsWhitespace c then
      match rest with
      | '@' :: after2 =>
        let grp := '@' :: atGroup after2
        atScanCore f ((c :: rest).drop (1 + grp.length)) false (pos + 1 + grp.length)
          (some (pos + 1, grp))
      | _ => atScanCore f rest false (pos + 1) acc
    else atScanCore f rest false (pos + 1) acc

/-- Removal of one trailing quote, the anchored quote replace of the
source. -/
def stripTrailingQuote (q : Str) : Str :=
  if q.getLast? = some '"' then q.dropLast else q

/-- The at-trigger detector: the last at match before the cursor, its query
with surrounding quotes stripped, and the index of the at sign. -/
def fileAtMatch (value : Str) (cursorPosition : Nat) : MatchResult :=
  let beforeCursor := value.take cursorPosition
  match atScanCore beforeCursor.length beforeCursor true 0 none with
  | none => noMatch
  | some (start, grp) =>
    let query0 := grp.drop 1
    let query :=
      if query0.head? = some '"' then stripTrailingQuote (query0.drop 1) else query0
    ⟨true, grp, query, (start : Int), some Trigger.at⟩

/-- The tab-trigger detector: only when armed, the maximal nonblank run
before the cursor, rejected when empty or when an at sign sits in that
run. -/
def fileTabMatch (value : Str) (cursorPosition : Nat) (forceTabTrigger : Bool) : MatchResult :=
  if !forceTabTrigger then noMatch
  else
    let beforeCursor := value.take cursorPosition
    let currentWord := (beforeCursor.reverse.takeWhile (fun c => !jsWhitespace c)).reverse
    if currentWord.isEmpty || currentWord.contains '@' then noMatch
    else
      ⟨true, currentWord, currentWord,
        ((beforeCursor.length - currentWord.length : Nat) : Int), some Trigger.tab⟩

/-- The active trigger: the at-trigger wins over the tab-trigger. -/
def fileActiveMatch (value : Str) (cursorPosition : Nat) (forceTabTrigger : Bool) :
    MatchResult :=
  let am := fileAtMatch value cursorPosition
  if am.hasQuery then am else fileTabMatch value cursorPosition forceTabTrigger

/-- The filtered candidate list: everything on an empty query, otherwise
the case-insensitive substring matches. -/
def fileMatchedPaths (m : MatchResult) (paths : List Str) : List Str :=
  if !m.hasQuery then []
  else if m.query.isEmpty then paths
  else paths.filter (fun p => jsIncludes (jsToLower p) (jsToLower m.query))

/-- The selected candidate of the file engine, quoted when it contains a
space; an out-of-range index gives the falsy empty answer. -/
def fileGetSelected (matched : List Str) (selIdx : Nat) : Option Str :=
  match matched.get? selIdx with
  | none => none
  | some sel => some (if sel.contains ' ' then '"' :: sel ++ ['"'] else sel)

/-- Embedding of applyFileSuggestion: recompute the active match and the
selection, then rebuild the buffer from the text before the span, the
prefix of the trigger kind, the selected candidate, one space and the
trimmed text after the span, trimming the whole; the cursor is set to the
length of the untrimmed front part. -/
def applyFileSuggestion (value : Str) (cursor : Nat) (forceTab : Bool)
    (paths : List Str) (selIdx : Nat) : Option (Str × Nat) :=
  let m := fileActiveMatch value cursor forceTab
  match fileGetSelected (fileMatchedPaths m paths) selIdx with
  | none => none
  | some selected =>
    let pfx : Str := if m.triggerType = some Trigger.at then ['@'] else []
    let before := value.take m.startIndex.toNat
    let after := jsTrim (value.drop (m.startIndex.toNat + m.fullMatch.length))
    some (jsTrim (before ++ pfx ++ selected ++ [' '] ++ after),
          (before ++ pfx ++ selected ++ [' ']).length)

example : fileAtMatch ("hi @fo".data) 6 =
    ⟨true, "@fo".data, "fo".data, 3, some Trigger.at⟩ := by decide
example : fileAtMatch ("@\"a b\" x".data) 6 =
    ⟨true, ['@', '"', 'a', ' ', 'b', '"'], ['a', ' ', 'b'], 0, some Trigger.at⟩ := by decide
example : fileTabMatch ("src/ma".data) 6 true =
    ⟨true, "src/ma".data, "src/ma".data, 0, some Trigger.tab⟩ := by decide
example : applyFileSuggestion ("hi @fo rest".data) 6 false ["foo".data] 0 =
    some ("hi @foo rest".data, 8) := by decide

/-- Dropping while a predicate holds leaves a list whose head fails the
predicate (or an empty list). -/
theorem dropWhile_head_false {p : Char → Bool} :
    ∀ (l : Str) (c : Char), (l.dropWhile p).head? = some c → p c = false := by
  intro l
  induction l with
  | nil => intro c h; simp at h
  | cons x xs ih =>
    intro c h
    by_cases hx : p x = true
    · rw [List.dropWhile_cons_of_pos hx] at h
      exact ih c h
    · rw [List.dropWhile_cons_of_neg hx] at h
      simp at h
      rw [← h]
      cases hpx : p x
      · rfl
      · exact absurd hpx hx

/-- A list whose head fails the predicate is left whole by dropWhile. -/
theorem dropWhile_eq_self_of_head {p : Char → Bool} :
    ∀ (l : Str), (∀ c, l.head? = some c → p c = false) → l.dropWhile p = l := by
  intro l h
  cases l with
  | nil => rfl
  | cons x xs =>
    have hx : p x = false := h x rfl
    rw [List.dropWhile_cons_of_neg]
    rw [hx]
    exact Bool.false_ne_true

/-- Trimming is the identity on a string with nonblank first and last
characters. -/
theorem jsTrim_eq_self (l : Str)
    (hh : ∀ c, l.head? = some c → jsWhitespace c = false)
    (hl : ∀ c, l.getLast? = some c → jsWhitespace c = false) :
    jsTrim l = l := by
  rw [jsTrim]
  rw [dropWhile_eq_self_of_head l hh]
  rw [dropWhile_eq_self_of_head l.reverse]
  · exact List.reverse_reverse l
  · intro c hc
    rw [List.head?_reverse] at hc
    exact hl c hc

/-- A nonempty trimmed string ends in a nonblank character. -/
theorem jsTrim_getLast_not_ws (s : Str) :
    ∀ c, (jsTrim s).getLast? = some c → jsWhitespace c = false := by
  intro c hc
  rw [jsTrim] at hc
  rw [List.getLast?_reverse] at hc
  exact dropWhile_head_false _ c hc

/-- The buffer text before the triggering span. -/
def spanBefore (value : Str) (m : MatchResult) : Str :=
  value.take m.startIndex.toNat

/-- The buffer text after the triggering span. -/
def spanAfter (value : Str) (m : MatchResult) : Str :=
  value.drop (m.startIndex.toNat + m.fullMatch.length)

/-- The prefix reinserted by the completion: the at sign for at-triggers,
nothing for tab-triggers. -/
def triggerPrefixOf (m : MatchResult) : Str :=
  if m.triggerType = some Trigger.at then ['@'] else []

/-- C4 counterexample: completing the buffer consisting only of an at
query produces a buffer without the trailing space the claim requires, and
a cursor one past the end of the produced buffer. -/
theorem applyFileSuggestion_counterexample :
    applyFileSuggestion ("@fo".data) 3 false ["foo".data] 0 = some ("@foo".data, 5) ∧
    ("@foo".data).length < 5 ∧
    "@foo".data ≠ "@foo ".data := by
  refine ⟨by decide, by decide, by decide⟩

/-- C4 amended: with an active trigger and a selected candidate, the
completion rebuilds the buffer as the trim of: text before the span, the
trigger prefix, the quoted candidate, one space and the trimmed text after
the span; the cursor is set to the length of that untrimmed front part.
When moreover the trigger is an at-trigger, the text before the span does
not start with whitespace and the trimmed text after the span is nonempty,
the buffer is exactly the claimed span replacement and the cursor sits just
after the inserted space. -/
theorem applyFileSuggestion_spec (value : Str) (cursor : Nat) (forceTab : Bool)
    (paths : List Str) (selIdx : Nat) (sel : Str)
    (hsel : fileGetSelected
      (fileMatchedPaths (fileActiveMatch value cursor forceTab) paths) selIdx = some sel) :
    (applyFileSuggestion value cursor forceTab paths selIdx =
      some (jsTrim (spanBefore value (fileActiveMatch value cursor forceTab) ++
              triggerPrefixOf (fileActiveMatch value cursor forceTab) ++ sel ++ [' '] ++
              jsTrim (spanAfter value (fileActiveMatch value cursor forceTab))),
            (spanBefore value (fileActiveMatch value cursor forceTab) ++
              triggerPrefixOf (fileActiveMatch value cursor forceTab) ++ sel ++ [' ']).length)) ∧
    ((fileActiveMatch value cursor forceTab).triggerType = some Trigger.at →
     (∀ c, (spanBefore value (fileActiveMatch value cursor forceTab)).head? = some c →
        jsWhitespace c = false) →
     jsTrim (spanAfter value (fileActiveMatch value cursor forceTab)) ≠ [] →
     applyFileSuggestion value cursor forceTab paths selIdx =
       some (spanBefore value (fileActiveMatch value cursor forceTab) ++
               '@' :: sel ++ ' ' :: jsTrim (spanAfter value (fileActiveMatch value cursor forceTab)),
             (spanBefore value (fileActiveMatch value cursor forceTab) ++ '@' :: sel).length + 1)) := by
  have hgen : applyFileSuggestion value cursor forceTab paths selIdx =
      some (jsTrim (spanBefore value (fileActiveMatch value cursor forceTab) ++
              triggerPrefixOf (fileActiveMatch value cursor forceTab) ++ sel ++ [' '] ++
              jsTrim (spanAfter value (fileActiveMatch value cursor forceTab))),
            (spanBefore value (fileActiveMatch value cursor forceTab) ++
              triggerPrefixOf (fileActiveMatch value cursor forceTab) ++ sel ++ [' ']).length) := by
    rw [applyFileSuggestion]
    rw [hsel]
    rfl
  refine ⟨hgen, ?_⟩
  intro hat hbh hta
  rw [hgen]
  have hpfx : triggerPrefixOf (fileActiveMatch value cursor forceTab) = ['@'] := by
    rw [triggerPrefixOf, if_pos hat]
  rw [hpfx]
  obtain ⟨tc, htc⟩ : ∃ tc, (jsTrim (spanAfter value
      (fileActiveMatch value cursor forceTab))).getLast? = some tc := by
    cases h : (jsTrim (spanAfter value (fileActiveMatch value cursor forceTab))).getLast?
    · exact absurd (List.getLast?_eq_none_iff.mp h) hta
    · exact ⟨_, rfl⟩
  have htrim : jsTrim (spanBefore value (fileActiveMatch value cursor forceTab) ++
      ['@'] ++ sel ++ [' '] ++ jsTrim (spanAfter value (fileActiveMatch value cursor forceTab))) =
      spanBefore value (fileActiveMatch value cursor forceTab) ++
      ['@'] ++ sel ++ [' '] ++ jsTrim (spanAfter value (fileActiveMatch value cursor forceTab)) := by
    apply jsTrim_eq_self
    · intro c hc
      by_cases hb : spanBefore value (fileActiveMatch value cursor forceTab) = []
      · rw [hb] at hc
        simp only [List.nil_append, List.singleton_append, List.cons_append,
          List.head?_cons, Option.some.injEq] at hc
        rw [← hc]
        decide
      · obtain ⟨b, bs, hb2⟩ := List.exists_cons_of_ne_nil hb
        rw [hb2] at hc
        simp only [List.cons_append, List.head?_cons, Option.some.injEq] at hc
        rw [← hc]
        exact hbh b (by rw [hb2]; rfl)
    · intro c hc
      rw [List.append_assoc, List.append_assoc, List.append_assoc] at hc
      rw [List.getLast?_append_of_ne_nil] at hc
      · rw [List.getLast?_append_of_ne_nil] at hc
        · rw [List.getLast?_append_of_ne_nil] at hc
          · rw [List.getLast?_append_of_ne_nil _ hta] at hc
            exact jsTrim_getLast_not_ws _ c hc
          · simp [hta]
        · simp [hta]
      · simp [hta]
  rw [htrim]
  have hshape : spanBefore value (fileActiveMatch value cursor forceTab) ++
      ['@'] ++ sel ++ [' '] ++ jsTrim (spanAfter value (fileActiveMatch value cursor forceTab)) =
      spanBefore value (fileActiveMatch value cursor forceTab) ++
      '@' :: sel ++ ' ' :: jsTrim (spanAfter value (fileActiveMatch value cursor forceTab)) := by
    simp
  have hlen : (spanBefore value (fileActiveMatch value cursor forceTab) ++
      ['@'] ++ sel ++ [' ']).length =
      (spanBefore value (fileActiveMatch value cursor forceTab) ++ '@' :: sel).length + 1 := by
    simp only [List.length_append, List.length_cons, List.length_singleton, List.length_nil]
    omega
  rw [hshape, hlen]

/-- C4 witness: completing at the end of a buffer with text before and
after the at span. -/
theorem applyFileSuggestion_spec_witness :
    fileGetSelected (fileMatchedPaths
      (fileActiveMatch ("hi @fo rest".data) 6 false) ["foo".data]) 0 = some ("foo".data) ∧
    applyFileSuggestion ("hi @fo rest".data) 6 false ["foo".data] 0 =
      some ("hi @foo rest".data, 8) := by
  refine ⟨by decide, ?_⟩
  have h := (applyFileSuggestion_spec ("hi @fo rest".data) 6 false ["foo".data] 0
    ("foo".data) (by decide)).2 (by decide) (by decide) (by decide)
  rw [h]
  decide

/-- Split at every occurrence of a separator character, the
single-character split of the source. -/
def jsSplitOn (sep : Char) : Str → List Str
  | [] => [[]]
  | c :: rest =>
    if c = sep then [] :: jsSplitOn sep rest
    else match jsSplitOn sep rest with
      | [] => [[c]]
      | seg :: segs => (c :: seg) :: segs

/-- Join with single spaces, the join of the source. -/
def jsJoinSpace : List Str → Str
  | [] => []
  | [s] => s
  | s :: rest => s ++ ' ' :: jsJoinSpace rest

/-- Embedding of getCompletedCommand: out-of-range selection returns the
buffer unchanged; otherwise the buffer is rewritten to the slash, the
selected name, the pre-completion arguments, trimmed, plus one trailing
space. -/
def getCompletedCommand (value : Str) (suggestions : List SlashCmd) (selIdx : Nat) : Str :=
  match suggestions.get? selIdx with
  | none => value
  | some sel =>
    let args := if value.contains ' ' then jsJoinSpace ((jsSplitOn ' ' value).drop 1) else []
    jsTrim ('/' :: sel.name ++ ' ' :: args) ++ [' ']

/-- The state read and written by the submit handler: the buffer, the
inputs of the two suggestion engines and their selection indices, the two
vault maps and the history log. -/
structure SubmitState where
  value : Str
  cursorPosition : Nat
  historyIndex : Option Nat
  draftInput : Str
  forceTabTrigger : Bool
  pathsCache : List Str
  commandsCache : List SlashCmd
  fileSelIdx : Nat
  slashSelIdx : Nat
  textEntries : List (Str × Str)
  imageEntries : List (Str × Str)
  history : List Str
deriving DecidableEq, Repr

/-- Outcome of one submit invocation: the state afterwards and the payload
of the submit callback when it was invoked (text and optional images). -/
structure SubmitOutcome where
  state : SubmitState
  submitted : Option (Str × Option (List Str))
deriving DecidableEq, Repr

/-- Embedding of handleSubmit: a showing slash-suggestion list is completed
and submitted; else a showing file-suggestion list consumes the submit by
applying the completion; else a blank buffer is a no-op, and otherwise the
trimmed buffer is expanded (pasted text first, then image references),
recorded in history, the input state reset, and the callback invoked once
with the expanded text and the resolved images, or no image argument when
none resolved. -/
def handleSubmit (s : SubmitState) : SubmitOutcome :=
  let slashSugg := slashSuggestions s.value s.commandsCache
  if !slashSugg.isEmpty then
    ⟨{ s with value := [], cursorPosition := 0, historyIndex := none, draftInput := [] },
     some (getCompletedCommand s.value slashSugg s.slashSelIdx, none)⟩
  else
    let matched := fileMatchedPaths
      (fileActiveMatch s.value s.cursorPosition s.forceTabTrigger) s.pathsCache
    if !matched.isEmpty then
      match applyFileSuggestion s.value s.cursorPosition s.forceTabTrigger
          s.pathsCache s.fileSelIdx with
      | some (nv, nc) =>
        ⟨{ s with value := nv, cursorPosition := nc, forceTabTrigger := false }, none⟩
      | none => ⟨s, none⟩
    else
      let trimmed := jsTrim s.value
      if trimmed.isEmpty then ⟨s, none⟩
      else
        let res := expandImageReferences s.imageEntries (expandPastedText s.textEntries trimmed)
        ⟨{ s with
            value := []
            cursorPosition := 0
            historyIndex := none
            draftInput := []
            history := s.history ++ [trimmed] },
         some (res.1, if res.2.isEmpty then none else some res.2)⟩

/-- The submission payload asserted by the claim: image tokens expanded
first on the trimmed buffer, text placeholder tokens second, with the
payloads of the image pass. -/
def claimedSubmitC1 (s : SubmitState) : Option (Str × Option (List Str)) :=
  let ri := expandImageReferences s.imageEntries (jsTrim s.value)
  some (expandPastedText s.textEntries ri.1,
        if ri.2.isEmpty then none else some ri.2)

/-- The concrete state refuting the claimed expansion order: the text vault
expands the only placeholder into an image placeholder. -/
def c1State : SubmitState :=
  ⟨"[Pasted text #1 1 lines]".data, 0, none, [], false, [], [], 0, 0,
   [("#1".data, "[Image 1X1 a#1]".data)], [("#1".data, "IMG".data)], []⟩

/-- C1 counterexample: with no suggestion list showing and a nonblank
buffer, the code expands text placeholders first and image references
second, so the submitted payload differs from the image-first order the
claim asserts. -/
theorem handleSubmit_order_counterexample :
    (slashSuggestions c1State.value c1State.commandsCache = [] ∧
     fileMatchedPaths (fileActiveMatch c1State.value c1State.cursorPosition
       c1State.forceTabTrigger) c1State.pathsCache = [] ∧
     jsTrim c1State.value ≠ []) ∧
    (handleSubmit c1State).submitted = some ([], some ["IMG".data]) ∧
    claimedSubmitC1 c1State = some ("[Image 1X1 a#1]".data, none) ∧
    (handleSubmit c1State).submitted ≠ claimedSubmitC1 c1State := by
  refine ⟨⟨by decide, by decide, by decide⟩, by decide, by decide, by decide⟩

/-- C1 amended: whenever no slash-command suggestions and no file-path
suggestions are showing and the trimmed buffer is nonblank, the submit
handler expands text placeholder tokens first and image references second,
appends the pre-expansion trimmed text to history, resets the input state
and invokes the callback exactly once with the expanded text and the
resolved image payloads (no image argument when none resolved). -/
theorem handleSubmit_spec (s : SubmitState)
    (hslash : slashSuggestions s.value s.commandsCache = [])
    (hfile : fileMatchedPaths
      (fileActiveMatch s.value s.cursorPosition s.forceTabTrigger) s.pathsCache = [])
    (hne : jsTrim s.value ≠ []) :
    handleSubmit s =
      ⟨{ s with
          value := []
          cursorPosition := 0
          historyIndex := none
          draftInput := []
          history := s.history ++ [jsTrim s.value] },
       some ((expandImageReferences s.imageEntries
                (expandPastedText s.textEntries (jsTrim s.value))).1,
             if (expandImageReferences s.imageEntries
                  (expandPastedText s.textEntries (jsTrim s.value))).2.isEmpty
             then none
             else some (expandImageReferences s.imageEntries
                    (expandPastedText s.textEntries (jsTrim s.value))).2)⟩ := by
  have h1 : (slashSuggestions s.value s.commandsCache).isEmpty = true := by
    rw [hslash]
    rfl
  have h2 : (fileMatchedPaths
      (fileActiveMatch s.value s.cursorPosition s.forceTabTrigger) s.pathsCache).isEmpty
      = true := by
    rw [hfile]
    rfl
  have h3 : (jsTrim s.value).isEmpty = false := by
    cases h : jsTrim s.value
    · exact absurd h hne
    · rfl
  rw [handleSubmit]
  simp only [h1, h2, h3, Bool.not_true, Bool.false_eq_true, if_false, Bool.not_false,
    Bool.true_eq_false, if_true]

/-- C1 witness: a concrete submit of a buffer holding one text placeholder
and one image placeholder with both vaults populated. -/
theorem handleSubmit_spec_witness :
    (slashSuggestions ("hi [Pasted text #1 1 lines] [Image 2X2 pic#1]".data) [] = [] ∧
     jsTrim ("hi [Pasted text #1 1 lines] [Image 2X2 pic#1]".data) ≠ []) ∧
    (handleSubmit
      ⟨"hi [Pasted text #1 1 lines] [Image 2X2 pic#1]".data, 0, none, [], false, [], [], 0, 0,
       [("#1".data, "WORLD".data)], [("#1".data, "DATA".data)], []⟩).submitted =
      some ("hi WORLD".data, some ["DATA".data]) := by
  refine ⟨⟨by decide, by decide⟩, ?_⟩
  have h := handleSubmit_spec
    ⟨"hi [Pasted text #1 1 lines] [Image 2X2 pic#1]".data, 0, none, [], false, [], [], 0, 0,
     [("#1".data, "WORLD".data)], [("#1".data, "DATA".data)], []⟩
    (by decide) (by decide) (by decide)
  rw [h]
  decide

/-- An occurrence of a token at a given position, as a decomposition of the
surrounding string. -/
def occursAt (s u : Str) (p : Nat) : Prop :=
  ∃ a b, s = a ++ u ++ b ∧ a.length = p

/-- Infixes are exactly the strings occurring at some position. -/
theorem infix_iff_occursAt (s u : Str) : u <:+: s ↔ ∃ p, occursAt s u p := by
  constructor
  · rintro ⟨a, b, h⟩
    exact ⟨a.length, a, b, by rw [← h], rfl⟩
  · rintro ⟨p, a, b, h, _⟩
    exact ⟨a, b, by rw [h]⟩

/-- The character of the surrounding string inside an occurrence. -/
theorem occursAt_getElem (s u : Str) (p i : Nat) (h : occursAt s u p) (hi : i < u.length) :
    s[p + i]? = u[i]? := by
  obtain ⟨a, b, hs, hp⟩ := h
  rw [hs]
  rw [List.append_assoc]
  rw [List.getElem?_append_right (by omega)]
  rw [hp]
  rw [Nat.add_sub_cancel_left]
  rw [List.getElem?_append_left hi]

/-- The first-occurrence search returns a genuine decomposition. -/
theorem findFirst_sound : ∀ (s pat a b : Str), findFirst s pat = some (a, b) →
    s = a ++ pat ++ b := by
  intro s
  induction s with
  | nil =>
    intro pat a b h
    rw [findFirst.eq_def] at h
    by_cases hp : pat.isPrefixOf ([] : Str) = true
    · rw [if_pos hp] at h
      have hpre : pat <+: ([] : Str) := List.isPrefixOf_iff_prefix.mp hp
      have : pat = [] := List.prefix_nil.mp hpre
      simp only [Option.some.injEq, Prod.mk.injEq] at h
      rw [← h.1, ← h.2, this]
      rfl
    · rw [if_neg hp] at h
      exact absurd h (by simp)
  | cons c rest ih =>
    intro pat a b h
    rw [findFirst.eq_def] at h
    by_cases hp : pat.isPrefixOf (c :: rest) = true
    · rw [if_pos hp] at h
      simp only [Option.some.injEq, Prod.mk.injEq] at h
      obtain ⟨t, ht⟩ := List.isPrefixOf_iff_prefix.mp hp
      rw [← h.1, ← h.2, List.nil_append, ← ht]
      rw [List.drop_left]
    · rw [if_neg hp] at h
      dsimp only at h
      cases hff : findFirst rest pat with
      | none => rw [hff] at h; exact absurd h (by simp)
      | some ab =>
        rw [hff] at h
        dsimp only at h
        simp only [Option.some.injEq, Prod.mk.injEq] at h
        obtain ⟨a2, b2⟩ := ab
        simp only at h
        rw [← h.1, ← h.2]
        have := ih pat a2 b2 hff
        rw [List.cons_append, List.cons_append, ← this]

/-- Replacing the first occurrence of one pattern keeps every infix whose
occurrences are all disjoint from occurrences of the pattern. -/
theorem replace_infix (s u v c : Str) (hu : u <:+: s)
    (hdisj : ∀ p q, occursAt s u p → occursAt s v q →
      p + u.length ≤ q ∨ q + v.length ≤ p) :
    u <:+: jsReplace s v c := by
  rw [jsReplace]
  cases hff : findFirst s v with
  | none => exact hu
  | some ab =>
    obtain ⟨a, b⟩ := ab
    dsimp only
    have hs : s = a ++ v ++ b := findFirst_sound s v a b hff
    obtain ⟨a0, b0, hs0⟩ : ∃ a0 b0, s = a0 ++ u ++ b0 := by
      obtain ⟨x, y, hxy⟩ := hu
      exact ⟨x, y, hxy.symm⟩
    have hocc_u : occursAt s u a0.length := ⟨a0, b0, hs0, rfl⟩
    have hocc_v : occursAt s v a.length := ⟨a, b, hs, rfl⟩
    rcases hdisj a0.length a.length hocc_u hocc_v with hcase | hcase
    · -- the occurrence of u lies inside the part before the replaced span
      have e1 : s.take a.length = a := by
        rw [hs, List.append_assoc, List.take_left]
      have e2 : s.take a.length =
          a0 ++ u ++ b0.take (a.length - (a0 ++ u).length) := by
        rw [hs0, List.take_append_eq_append_take]
        rw [List.take_of_length_le (by rw [List.length_append]; omega)]
      have ht : a = a0 ++ u ++ b0.take (a.length - (a0 ++ u).length) :=
        e1.symm.trans e2
      refine ⟨a0, b0.take (a.length - (a0 ++ u).length) ++ substDollar v a b c ++ b, ?_⟩
      generalize substDollar v a b c = X
      rw [ht]
      simp [List.append_assoc]
      omega
    · -- the occurrence of u lies inside the part after the replaced span
      have e1 : s.drop (a.length + v.length) = b := by
        rw [hs, List.drop_left' (by rw [List.length_append])]
      have hz1 : a.length + v.length - a0.length = 0 :=
        Nat.sub_eq_zero_of_le (by omega)
      have hz2 : a.length + v.length - (a0 ++ u).length = 0 :=
        Nat.sub_eq_zero_of_le (by rw [List.length_append]; omega)
      have e2 : s.drop (a.length + v.length) =
          a0.drop (a.length + v.length) ++ u ++ b0 := by
        rw [hs0, List.drop_append_eq_append_drop, List.drop_append_eq_append_drop]
        rw [hz1, hz2, List.drop_zero, List.drop_zero]
      have ht : b = a0.drop (a.length + v.length) ++ u ++ b0 :=
        e1.symm.trans e2
      refine ⟨a ++ substDollar v a b c ++ a0.drop (a.length + v.length), b0, ?_⟩
      generalize substDollar v a b c = X
      rw [ht]
      simp [List.append_assoc]

/-- Dropping leading whitespace preserves a decomposition around an infix
that starts with a nonblank character. -/
theorem dropWhile_infix_decomp (u : Str) (hne : u ≠ [])
    (hh : ∀ c, u.head? = some c → jsWhitespace c = false) :
    ∀ a b : Str, ∃ a2, (a ++ u ++ b).dropWhile jsWhitespace = a2 ++ u ++ b := by
  intro a
  induction a with
  | nil =>
    intro b
    refine ⟨[], ?_⟩
    match u, hne with
    | c :: u2, _ =>
      have hc : jsWhitespace c = false := hh c rfl
      rw [List.nil_append, List.cons_append]
      rw [List.dropWhile_cons_of_neg (by rw [hc]; exact Bool.false_ne_true)]
  | cons x a2 ih =>
    intro b
    by_cases hx : jsWhitespace x = true
    · obtain ⟨a3, h3⟩ := ih b
      refine ⟨a3, ?_⟩
      rw [List.cons_append, List.cons_append, List.dropWhile_cons_of_pos hx]
      exact h3
    · refine ⟨x :: a2, ?_⟩
      rw [List.cons_append, List.cons_append, List.dropWhile_cons_of_neg hx]

/-- Trimming preserves every infix with nonblank first and last
characters. -/
theorem jsTrim_infix (u s : Str) (hne : u ≠ [])
    (hh : ∀ c, u.head? = some c → jsWhitespace c = false)
    (hl : ∀ c, u.getLast? = some c → jsWhitespace c = false)
    (hinf : u <:+: s) : u <:+: jsTrim s := by
  obtain ⟨a, b, hs⟩ := hinf
  rw [jsTrim, ← hs]
  obtain ⟨a2, h1⟩ := dropWhile_infix_decomp u hne hh a b
  rw [h1]
  have h2 : (a2 ++ u ++ b).reverse = b.reverse ++ u.reverse ++ a2.reverse := by
    simp
  rw [h2]
  have hne2 : u.reverse ≠ [] := by
    simpa using hne
  have hh2 : ∀ c, u.reverse.head? = some c → jsWhitespace c = false := by
    intro c hc
    rw [List.head?_reverse] at hc
    exact hl c hc
  obtain ⟨b2, h3⟩ := dropWhile_infix_decomp u.reverse hne2 hh2 b.reverse a2.reverse
  rw [h3]
  refine ⟨a2, b2.reverse, ?_⟩
  simp

/-- A successful literal-prefix step certifies the decomposition. -/
theorem expectLit_sound (lit s r : Str) (h : expectLit lit s = some r) : s = lit ++ r := by
  rw [expectLit] at h
  by_cases hp : lit.isPrefixOf s = true
  · rw [if_pos hp] at h
    simp only [Option.some.injEq] at h
    obtain ⟨t, ht⟩ := List.isPrefixOf_iff_prefix.mp hp
    rw [← ht] at h ⊢
    rw [List.drop_left] at h
    rw [h]
  · rw [if_neg hp] at h
    exact absurd h (by simp)

/-- Dropping the length of the taken prefix is dropping while. -/
theorem drop_takeWhile_length (p : Char → Bool) (l : Str) :
    l.drop (l.takeWhile p).length = l.dropWhile p := by
  induction l with
  | nil => rfl
  | cons c cs ih =>
    by_cases hc : p c = true
    · rw [List.takeWhile_cons_of_pos hc, List.dropWhile_cons_of_pos hc]
      simpa using ih
    · rw [List.takeWhile_cons_of_neg hc, List.dropWhile_cons_of_neg hc]
      rfl

/-- A string splits at its taken prefix. -/
theorem takeWhile_drop_split (p : Char → Bool) (l : Str) :
    l = l.takeWhile p ++ l.drop (l.takeWhile p).length := by
  rw [drop_takeWhile_length]
  exact (List.takeWhile_append_dropWhile p l).symm

/-- The structure of a pasted-text placeholder with its id: the two digit
runs framed by the three literals. -/
def PastedShape (full ident : Str) : Prop :=
  ∃ ds1 ds2 : Str, ds1 ≠ [] ∧ (∀ c ∈ ds1, jsIsDigit c = true) ∧
    ds2 ≠ [] ∧ (∀ c ∈ ds2, jsIsDigit c = true) ∧
    full = "[Pasted text #".data ++ ds1 ++ " ".data ++ ds2 ++ " lines]".data ∧
    ident = '#' :: ds1

/-- The structure of an image placeholder with its id: the dimension runs,
the bracket-free nonempty segment before the hash, and the digit run of
the id. -/
def ImageShape (full ident : Str) : Prop :=
  ∃ w h pre ds : Str,
    w ≠ [] ∧ (∀ c ∈ w, jsIsDigit c = true) ∧
    h ≠ [] ∧ (∀ c ∈ h, jsIsDigit c = true) ∧
    pre ≠ [] ∧ ']' ∉ pre ∧
    ds ≠ [] ∧ (∀ c ∈ ds, jsIsDigit c = true) ∧
    full = "[Image ".data ++ w ++ "X".data ++ h ++ " ".data ++ pre ++ '#' :: ds ++ "]".data ∧
    ident = '#' :: ds

/-- A successful pasted-text parse yields a placeholder of the documented
structure sitting at the head of the input. -/
theorem parsePastedAt_sound (s full ident : Str)
    (h : parsePastedAt s = some (full, ident)) :
    PastedShape full ident ∧ ∃ rest, s = full ++ rest := by
  rw [parsePastedAt] at h
  cases he1 : expectLit ("[Pasted text #".data) s with
  | none => rw [he1] at h; exact absurd h (by simp)
  | some r1 =>
    rw [he1] at h
    dsimp only at h
    by_cases hd1 : (r1.takeWhile jsIsDigit).isEmpty = true
    · rw [if_pos hd1] at h
      exact absurd h (by simp)
    · rw [if_neg hd1] at h
      cases he2 : expectLit (" ".data) (r1.drop (r1.takeWhile jsIsDigit).length) with
      | none => rw [he2] at h; exact absurd h (by simp)
      | some r3 =>
        rw [he2] at h
        dsimp only at h
        by_cases hd2 : (r3.takeWhile jsIsDigit).isEmpty = true
        · rw [if_pos hd2] at h
          exact absurd h (by simp)
        · rw [if_neg hd2] at h
          cases he3 : expectLit (" lines]".data) (r3.drop (r3.takeWhile jsIsDigit).length) with
          | none => rw [he3] at h; exact absurd h (by simp)
          | some r5 =>
            rw [he3] at h
            dsimp only at h
            simp only [Option.some.injEq, Prod.mk.injEq] at h
            obtain ⟨hfull, hident⟩ := h
            constructor
            · refine ⟨r1.takeWhile jsIsDigit, r3.takeWhile jsIsDigit, ?_, ?_, ?_, ?_,
                hfull.symm, hident.symm⟩
              · intro hcontra
                rw [hcontra] at hd1
                exact hd1 rfl
              · intro c hc
                exact List.mem_takeWhile_imp hc
              · intro hcontra
                rw [hcontra] at hd2
                exact hd2 rfl
              · intro c hc
                exact List.mem_takeWhile_imp hc
            · refine ⟨r5, ?_⟩
              have hs1 : s = "[Pasted text #".data ++ r1 := expectLit_sound _ _ _ he1
              have hs2 : r1 = r1.takeWhile jsIsDigit ++
                  r1.drop (r1.takeWhile jsIsDigit).length := takeWhile_drop_split _ _
              have hs3 : r1.drop (r1.takeWhile jsIsDigit).length = " ".data ++ r3 :=
                expectLit_sound _ _ _ he2
              have hs4 : r3 = r3.takeWhile jsIsDigit ++
                  r3.drop (r3.takeWhile jsIsDigit).length := takeWhile_drop_split _ _
              have hs5 : r3.drop (r3.takeWhile jsIsDigit).length = " lines]".data ++ r5 :=
                expectLit_sound _ _ _ he3
              rw [hs1, hs2, hs3, hs4, hs5, ← hfull]
              simp [List.append_assoc]

/-- Reversing a split around a hash. -/
theorem seg_decomp_reverse (seg dsRev preRev : Str)
    (hsplit : seg.reverse = dsRev ++ '#' :: preRev) :
    seg = preRev.reverse ++ '#' :: dsRev.reverse := by
  have h2 := congrArg List.reverse hsplit
  rw [List.reverse_reverse] at h2
  rw [h2]
  simp

/-- A successful image parse yields a placeholder of the documented
structure sitting at the head of the input. -/
theorem parseImageAt_sound (s full ident : Str)
    (h : parseImageAt s = some (full, ident)) :
    ImageShape full ident ∧ ∃ rest, s = full ++ rest := by
  rw [parseImageAt] at h
  cases he1 : expectLit ("[Image ".data) s with
  | none => rw [he1] at h; exact absurd h (by simp)
  | some r1 =>
    rw [he1] at h
    dsimp only at h
    by_cases hw : (r1.takeWhile jsIsDigit).isEmpty = true
    · rw [if_pos hw] at h
      exact absurd h (by simp)
    · rw [if_neg hw] at h
      cases he2 : expectLit ("X".data) (r1.drop (r1.takeWhile jsIsDigit).length) with
      | none => rw [he2] at h; exact absurd h (by simp)
      | some r3 =>
        rw [he2] at h
        dsimp only at h
        by_cases hh2 : (r3.takeWhile jsIsDigit).isEmpty = true
        · rw [if_pos hh2] at h
          exact absurd h (by simp)
        · rw [if_neg hh2] at h
          cases he3 : expectLit (" ".data) (r3.drop (r3.takeWhile jsIsDigit).length) with
          | none => rw [he3] at h; exact absurd h (by simp)
          | some r5 =>
            rw [he3] at h
            dsimp only at h
            by_cases hr6 : ((r5.drop (r5.takeWhile (fun c => c != ']')).length).head?
                != some ']') = true
            · rw [if_pos hr6] at h
              exact absurd h (by simp)
            · rw [if_neg hr6] at h
              cases hrev : (r5.takeWhile (fun c => c != ']')).reverse.drop
                  ((r5.takeWhile (fun c => c != ']')).reverse.takeWhile jsIsDigit).length with
              | nil => rw [hrev] at h; exact absurd h (by simp)
              | cons hashc preRev =>
                rw [hrev] at h
                dsimp only at h
                by_cases hhash : hashc = '#'
                · rw [if_pos hhash] at h
                  by_cases hempt : (((r5.takeWhile (fun c => c != ']')).reverse.takeWhile
                      jsIsDigit).isEmpty || preRev.isEmpty) = true
                  · rw [if_pos hempt] at h
                    exact absurd h (by simp)
                  · rw [if_neg hempt] at h
                    simp only [Option.some.injEq, Prod.mk.injEq] at h
                    obtain ⟨hfull, hident⟩ := h
                    simp only [Bool.or_eq_true, not_or] at hempt
                    push_neg at hempt
                    obtain ⟨hds_ne, hpre_ne⟩ := hempt
                    have hseg : r5.takeWhile (fun c => c != ']') =
                        preRev.reverse ++ '#' ::
                          ((r5.takeWhile (fun c => c != ']')).reverse.takeWhile
                            jsIsDigit).reverse := by
                      apply seg_decomp_reverse
                      have hsplit := takeWhile_drop_split jsIsDigit
                        (r5.takeWhile (fun c => c != ']')).reverse
                      rw [hrev, hhash] at hsplit
                      exact hsplit
                    constructor
                    · refine ⟨r1.takeWhile jsIsDigit, r3.takeWhile jsIsDigit, preRev.reverse,
                        ((r5.takeWhile (fun c => c != ']')).reverse.takeWhile jsIsDigit).reverse,
                        ?_, ?_, ?_, ?_, ?_, ?_, ?_, ?_, ?_, ?_⟩
                      · intro hcontra
                        rw [hcontra] at hw
                        exact hw rfl
                      · intro c hc
                        exact List.mem_takeWhile_imp hc
                      · intro hcontra
                        rw [hcontra] at hh2
                        exact hh2 rfl
                      · intro c hc
                        exact List.mem_takeWhile_imp hc
                      · intro hcontra
                        have hpe : preRev = [] := List.reverse_eq_nil_iff.mp hcontra
                        rw [hpe] at hpre_ne
                        exact hpre_ne rfl
                      · intro hcontra
                        rw [List.mem_reverse] at hcontra
                        have hmem : ']' ∈ (r5.takeWhile (fun c => c != ']')).reverse := by
                          have : ']' ∈ hashc :: preRev := List.mem_cons_of_mem _ hcontra
                          rw [← hrev] at this
                          exact List.mem_of_mem_drop this
                        rw [List.mem_reverse] at hmem
                        have := List.mem_takeWhile_imp hmem
                        simp at this
                      · intro hcontra
                        have : ((r5.takeWhile (fun c => c != ']')).reverse.takeWhile
                            jsIsDigit) = [] := by
                          have := congrArg List.reverse hcontra
                          rw [List.reverse_reverse] at this
                          simpa using this
                        rw [this] at hds_ne
                        exact hds_ne rfl
                      · intro c hc
                        rw [List.mem_reverse] at hc
                        exact List.mem_takeWhile_imp hc
                      · rw [← hfull]
                        conv_lhs => rw [hseg]
                        simp [List.append_assoc]
                      · rw [← hident]
                    · have hs1 : s = "[Image ".data ++ r1 := expectLit_sound _ _ _ he1
                      have hs2 : r1 = r1.takeWhile jsIsDigit ++
                          r1.drop (r1.takeWhile jsIsDigit).length := takeWhile_drop_split _ _
                      have hs3 : r1.drop (r1.takeWhile jsIsDigit).length = "X".data ++ r3 :=
                        expectLit_sound _ _ _ he2
                      have hs4 : r3 = r3.takeWhile jsIsDigit ++
                          r3.drop (r3.takeWhile jsIsDigit).length := takeWhile_drop_split _ _
                      have hs5 : r3.drop (r3.takeWhile jsIsDigit).length = " ".data ++ r5 :=
                        expectLit_sound _ _ _ he3
                      have hs6 : r5 = r5.takeWhile (fun c => c != ']') ++
                          r5.drop (r5.takeWhile (fun c => c != ']')).length :=
                        takeWhile_drop_split _ _
                      have hr6head : (r5.drop (r5.takeWhile (fun c => c != ']')).length).head?
                          = some ']' := by
                        simp only [bne_iff_ne, ne_eq, Bool.not_eq_true] at hr6
                        simpa using hr6
                      obtain ⟨r7, hr7⟩ : ∃ r7,
                          r5.drop (r5.takeWhile (fun c => c != ']')).length = ']' :: r7 := by
                        cases hcase : r5.drop (r5.takeWhile (fun c => c != ']')).length with
                        | nil => rw [hcase] at hr6head; exact absurd hr6head (by simp)
                        | cons x xs =>
                          rw [hcase] at hr6head
                          simp only [List.head?_cons, Option.some.injEq] at hr6head
                          exact ⟨xs, by rw [hr6head]⟩
                      refine ⟨r7, ?_⟩
                      rw [hs1, hs2, hs3, hs4, hs5, hs6, hr7, ← hfull]
                      simp [List.append_assoc]
                · rw [if_neg hhash] at h
                  exact absurd h (by simp)

/-- Digit characters are not brackets. -/
theorem digit_not_bracket {c : Char} (h : jsIsDigit c = true) : c ≠ '[' ∧ c ≠ ']' := by
  constructor
  · intro he
    rw [he] at h
    exact absurd h (by decide)
  · intro he
    rw [he] at h
    exact absurd h (by decide)

/-- A pasted-text placeholder is an open bracket, a bracketless middle and
the closing bracket, with no inner open bracket either. -/
theorem pastedShape_block (full ident : Str) (h : PastedShape full ident) :
    ∃ mid, full = ('[' :: mid) ++ [']'] ∧ ']' ∉ mid ∧ '[' ∉ mid := by
  obtain ⟨ds1, ds2, hne1, hd1, hne2, hd2, hfull, hid⟩ := h
  refine ⟨"Pasted text #".data ++ ds1 ++ " ".data ++ ds2 ++ " lines".data, ?_, ?_, ?_⟩
  · rw [hfull]
    simp [List.append_assoc]
  · intro hmem
    simp only [List.mem_append] at hmem
    rcases hmem with ((((hm | hm) | hm) | hm) | hm)
    · exact absurd hm (by decide)
    · exact absurd rfl (digit_not_bracket (hd1 _ hm)).2
    · exact absurd hm (by decide)
    · exact absurd rfl (digit_not_bracket (hd2 _ hm)).2
    · exact absurd hm (by decide)
  · intro hmem
    simp only [List.mem_append] at hmem
    rcases hmem with ((((hm | hm) | hm) | hm) | hm)
    · exact absurd hm (by decide)
    · exact absurd rfl (digit_not_bracket (hd1 _ hm)).1
    · exact absurd hm (by decide)
    · exact absurd rfl (digit_not_bracket (hd2 _ hm)).1
    · exact absurd hm (by decide)

/-- An image placeholder is an open bracket, a middle free of closing
brackets and the closing bracket. -/
theorem imageShape_block (full ident : Str) (h : ImageShape full ident) :
    ∃ mid, full = ('[' :: mid) ++ [']'] ∧ ']' ∉ mid := by
  obtain ⟨w, hh, pre, ds, hwne, hwd, hhne, hhd, hpne, hpmem, hdne, hdd, hfull, hid⟩ := h
  refine ⟨"Image ".data ++ w ++ "X".data ++ hh ++ " ".data ++ pre ++ '#' :: ds, ?_, ?_⟩
  · rw [hfull]
    simp [List.append_assoc]
  · intro hmem
    simp only [List.mem_append] at hmem
    rcases hmem with ((((((hm | hm) | hm) | hm) | hm) | hm) | hm)
    · exact absurd hm (by decide)
    · exact absurd rfl (digit_not_bracket (hwd _ hm)).2
    · exact absurd hm (by decide)
    · exact absurd rfl (digit_not_bracket (hhd _ hm)).2
    · exact absurd hm (by decide)
    · exact hpmem hm
    · rcases List.mem_cons.mp hm with hm | hm
      · exact absurd hm (by decide)
      · exact absurd rfl (digit_not_bracket (hdd _ hm)).2

/-- In a bracket block the closing bracket occurs only at the final index. -/
theorem block_rbracket_index (mid : Str) (hmem : ']' ∉ mid) (j : Nat)
    (h : (('[' :: mid) ++ [']'])[j]? = some ']') : j = mid.length + 1 := by
  match j with
  | 0 =>
    rw [List.cons_append, List.getElem?_cons_zero] at h
    exact absurd (Option.some.inj h) (by decide)
  | k + 1 =>
    rw [List.cons_append, List.getElem?_cons_succ] at h
    rcases Nat.lt_trichotomy k mid.length with hk | hk | hk
    · rw [List.getElem?_append_left hk] at h
      exact absurd (List.getElem?_mem h) hmem
    · omega
    · have hlen : (mid ++ [']']).length ≤ k := by
        rw [List.length_append, List.length_singleton]; omega
      rw [List.getElem?_eq_none hlen] at h
      exact absurd h (by simp)

/-- In a pasted-text block the opening bracket occurs only at index zero. -/
theorem block_lbracket_index (mid : Str) (hmem : '[' ∉ mid) (j : Nat)
    (h : (('[' :: mid) ++ [']'])[j]? = some '[') : j = 0 := by
  match j with
  | 0 => rfl
  | k + 1 =>
    rw [List.cons_append, List.getElem?_cons_succ] at h
    rcases Nat.lt_trichotomy k mid.length with hk | hk | hk
    · rw [List.getElem?_append_left hk] at h
      exact absurd (List.getElem?_mem h) hmem
    · rw [List.getElem?_append_right (by omega)] at h
      rw [hk, Nat.sub_self, List.getElem?_cons_zero] at h
      exact absurd (Option.some.inj h) (by decide)
    · have hlen : (mid ++ [']']).length ≤ k := by
        rw [List.length_append, List.length_singleton]; omega
      rw [List.getElem?_eq_none hlen] at h
      exact absurd h (by simp)

/-- A bracket block ends in the closing bracket at its last index. -/
theorem block_last (mid : Str) :
    (('[' :: mid) ++ [']'])[mid.length + 1]? = some ']' := by
  rw [List.cons_append, List.getElem?_cons_succ]
  rw [List.getElem?_append_right (Nat.le_refl _)]
  rw [Nat.sub_self, List.getElem?_cons_zero]

/-- Overlapping occurrences of two bracket blocks share their closing
bracket, so they end at the same position. -/
theorem blocks_overlap_ends (s u v : Str) (p q : Nat)
    (mu mv : Str)
    (hu : u = ('[' :: mu) ++ [']']) (hmu : ']' ∉ mu)
    (hv : v = ('[' :: mv) ++ [']']) (hmv : ']' ∉ mv)
    (hou : occursAt s u p) (hov : occursAt s v q)
    (h1 : q < p + u.length) (h2 : p < q + v.length) :
    p + u.length = q + v.length := by
  have hlu : u.length = mu.length + 2 := by
    rw [hu, List.length_append, List.length_cons, List.length_singleton]
  have hlv : v.length = mv.length + 2 := by
    rw [hv, List.length_append, List.length_cons, List.length_singleton]
  rcases Nat.le_total (p + u.length) (q + v.length) with hle | hle
  · -- u ends no later than v; u's closing bracket lies inside v
    have hiu : p + u.length - 1 = p + (mu.length + 1) := by omega
    have hidx : p + (mu.length + 1) = q + (p + u.length - 1 - q) := by omega
    have hsu : s[p + (mu.length + 1)]? = some ']' := by
      rw [occursAt_getElem s u p (mu.length + 1) hou (by omega)]
      rw [hu]; exact block_last mu
    rw [hidx] at hsu
    rw [occursAt_getElem s v q (p + u.length - 1 - q) hov (by omega)] at hsu
    rw [hv] at hsu
    have := block_rbracket_index mv hmv _ hsu
    omega
  · -- v ends no later than u; v's closing bracket lies inside u
    have hidx : q + (mv.length + 1) = p + (q + v.length - 1 - p) := by omega
    have hsv : s[q + (mv.length + 1)]? = some ']' := by
      rw [occursAt_getElem s v q (mv.length + 1) hov (by omega)]
      rw [hv]; exact block_last mv
    rw [hidx] at hsv
    rw [occursAt_getElem s u p (q + v.length - 1 - p) hou (by omega)] at hsv
    rw [hu] at hsv
    have := block_rbracket_index mu hmu _ hsv
    omega

/-- A string occurring somewhere contains each of its append parts at the
shifted position. -/
theorem occursAt_of_append (s u a t : Str) (p : Nat)
    (h : occursAt s u p) (hu : u = a ++ t) : occursAt s t (p + a.length) := by
  obtain ⟨x, y, hs, hp⟩ := h
  refine ⟨x ++ a, y, ?_, ?_⟩
  · rw [hs, hu]
    simp [List.append_assoc]
  · rw [List.length_append, hp]

/-- Two occurrences ending at the same position: the shorter string is the
matching suffix of the longer one. -/
theorem occursAt_sameEnd_suffix (s u v : Str) (p q : Nat)
    (hou : occursAt s u p) (hov : occursAt s v q)
    (hend : p + u.length = q + v.length) (hle : v.length ≤ u.length) :
    v = u.drop (u.length - v.length) := by
  have hq : q = p + (u.length - v.length) := by
    have h1 := hou
    have h2 := hov
    obtain ⟨a, b, hs, hp⟩ := h1
    obtain ⟨c, d, hs2, hp2⟩ := h2
    have hlen := congrArg List.length (hs.symm.trans hs2)
    simp only [List.length_append] at hlen
    omega
  apply List.ext_getElem?
  intro i
  by_cases hi : i < v.length
  · have h1 : v[i]? = s[q + i]? := (occursAt_getElem s v q i hov hi).symm
    have h2 : s[p + (u.length - v.length + i)]? = u[u.length - v.length + i]? :=
      occursAt_getElem s u p _ hou (by omega)
    have h3 : q + i = p + (u.length - v.length + i) := by omega
    rw [h1, h3, h2, List.getElem?_drop]
  · have h4 : v[i]? = none := List.getElem?_eq_none (by omega)
    have h5 : (u.drop (u.length - v.length))[i]? = none := by
      apply List.getElem?_eq_none
      rw [List.length_drop]
      omega
    rw [h4, h5]

/-- takeWhile over a run that satisfies the predicate and stops at the first
failing character returns exactly the run. -/
theorem takeWhile_stops (p : Char → Bool) (ds : Str) (x : Char) (r : Str)
    (hds : ∀ c ∈ ds, p c = true) (hx : p x = false) :
    (ds ++ x :: r).takeWhile p = ds := by
  induction ds with
  | nil => simp [List.takeWhile_cons, hx]
  | cons c cs ih =>
    have hc : p c = true := hds c (List.mem_cons_self c cs)
    rw [List.cons_append, List.takeWhile_cons, hc]
    simp only [if_true]
    rw [ih (fun d hd => hds d (List.mem_cons_of_mem c hd))]

/-- The id of a pasted-text placeholder is determined by the placeholder
string itself: it is the hash followed by the first digit run. -/
theorem pastedShape_ident_unique (full i1 i2 : Str)
    (h1 : PastedShape full i1) (h2 : PastedShape full i2) : i1 = i2 := by
  obtain ⟨a1, b1, hane1, had1, hbne1, hbd1, hfull1, hid1⟩ := h1
  obtain ⟨a2, b2, hane2, had2, hbne2, hbd2, hfull2, hid2⟩ := h2
  have heq : "[Pasted text #".data ++ (a1 ++ (" ".data ++ (b1 ++ " lines]".data))) =
      "[Pasted text #".data ++ (a2 ++ (" ".data ++ (b2 ++ " lines]".data))) := by
    have h0 := hfull1.symm.trans hfull2
    simpa only [List.append_assoc] using h0
  have heq2 : a1 ++ (" ".data ++ (b1 ++ " lines]".data)) =
      a2 ++ (" ".data ++ (b2 ++ " lines]".data)) := (List.append_inj heq rfl).2
  have heq3 : a1 ++ ' ' :: (b1 ++ " lines]".data) =
      a2 ++ ' ' :: (b2 ++ " lines]".data) := heq2
  have hta : (a1 ++ ' ' :: (b1 ++ " lines]".data)).takeWhile jsIsDigit = a1 :=
    takeWhile_stops jsIsDigit a1 ' ' (b1 ++ " lines]".data) had1 (by decide)
  have htb : (a2 ++ ' ' :: (b2 ++ " lines]".data)).takeWhile jsIsDigit = a2 :=
    takeWhile_stops jsIsDigit a2 ' ' (b2 ++ " lines]".data) had2 (by decide)
  rw [hid1, hid2, ← hta, ← htb, heq3]

/-- With the same end position and the shorter block starting with an open
bracket, a pasted-text block equals the shorter one. -/
theorem pasted_sameEnd_aux (s u v : Str) (p q : Nat) (mu : Str)
    (hub : u = ('[' :: mu) ++ [']']) (hmu2 : '[' ∉ mu)
    (hvhead : v[0]? = some '[')
    (hou : occursAt s u p) (hov : occursAt s v q)
    (hend : p + u.length = q + v.length) (hle : v.length ≤ u.length) : v = u := by
  have hsuf := occursAt_sameEnd_suffix s u v p q hou hov hend hle
  have hu0 : u[u.length - v.length + 0]? = some '[' := by
    rw [← List.getElem?_drop, ← hsuf]
    exact hvhead
  rw [hub] at hu0
  have hk := block_lbracket_index mu hmu2 _ hu0
  have hul : u.length = (('[' :: mu) ++ [']']).length := congrArg List.length hub
  have hz : u.length - v.length = 0 := by omega
  rw [hsuf, hz, List.drop_zero]

/-- Overlapping occurrences of two pasted-text placeholders carry the same
id: the blocks share their closing bracket, hence coincide. -/
theorem pasted_overlap_ident (s u v iu iv : Str) (p q : Nat)
    (hu : PastedShape u iu) (hv : PastedShape v iv)
    (hou : occursAt s u p) (hov : occursAt s v q)
    (h1 : q < p + u.length) (h2 : p < q + v.length) : iu = iv := by
  obtain ⟨mu, hub, hmur, hmul⟩ := pastedShape_block u iu hu
  obtain ⟨mv, hvb, hmvr, hmvl⟩ := pastedShape_block v iv hv
  have hend := blocks_overlap_ends s u v p q mu mv hub hmur hvb hmvr hou hov h1 h2
  have huv : u = v := by
    rcases Nat.le_total v.length u.length with hle | hle
    · refine (pasted_sameEnd_aux s u v p q mu hub hmul ?_ hou hov hend hle).symm
      rw [hvb, List.cons_append, List.getElem?_cons_zero]
    · refine pasted_sameEnd_aux s v u q p mv hvb hmvl ?_ hov hou hend.symm hle
      rw [hub, List.cons_append, List.getElem?_cons_zero]
  exact pastedShape_ident_unique u iu iv hu (huv ▸ hv)

/-- In the hash-id tail of an image placeholder the hash occurs only at
index zero. -/
theorem hashtail_hash_index (ds : Str) (hd : ∀ c ∈ ds, jsIsDigit c = true) (j : Nat)
    (h : ('#' :: (ds ++ [']']))[j]? = some '#') : j = 0 := by
  match j with
  | 0 => rfl
  | k + 1 =>
    rw [List.getElem?_cons_succ] at h
    rcases Nat.lt_trichotomy k ds.length with hk | hk | hk
    · rw [List.getElem?_append_left hk] at h
      have := hd _ (List.getElem?_mem h)
      exact absurd this (by decide)
    · rw [List.getElem?_append_right (by omega), hk, Nat.sub_self,
        List.getElem?_cons_zero] at h
      exact absurd (Option.some.inj h) (by decide)
    · have hlen : (ds ++ [']']).length ≤ k := by
        rw [List.length_append, List.length_singleton]; omega
      rw [List.getElem?_eq_none hlen] at h
      exact absurd h (by simp)

/-- An image placeholder decomposes into a front part and the hash-id tail
that determines its id. -/
theorem imageShape_tail (full ident : Str) (h : ImageShape full ident) :
    ∃ z ds, ds ≠ [] ∧ (∀ c ∈ ds, jsIsDigit c = true) ∧
      full = z ++ '#' :: (ds ++ [']']) ∧ ident = '#' :: ds := by
  obtain ⟨w, hh, pre, ds, hwne, hwd, hhne, hhd, hpne, hpmem, hdne, hdd, hfull, hid⟩ := h
  refine ⟨"[Image ".data ++ w ++ "X".data ++ hh ++ " ".data ++ pre, ds, hdne, hdd, ?_, hid⟩
  rw [hfull]
  simp only [List.append_assoc, List.cons_append]

/-- Two hash-id tails occurring with a common end position carry the same
digit run. -/
theorem hashtail_sameEnd_aux (s du dv : Str) (p q : Nat)
    (hdv : ∀ c ∈ dv, jsIsDigit c = true)
    (hou : occursAt s ('#' :: (du ++ [']'])) p)
    (hov : occursAt s ('#' :: (dv ++ [']'])) q)
    (hend : p + ('#' :: (du ++ [']'])).length = q + ('#' :: (dv ++ [']'])).length)
    (hle : ('#' :: (du ++ [']'])).length ≤ ('#' :: (dv ++ [']'])).length) :
    du = dv := by
  have hsuf := occursAt_sameEnd_suffix s ('#' :: (dv ++ [']'])) ('#' :: (du ++ [']']))
    q p hov hou hend.symm hle
  have h0 : ('#' :: (dv ++ [']']))[('#' :: (dv ++ [']'])).length -
      ('#' :: (du ++ [']'])).length + 0]? = some '#' := by
    rw [← List.getElem?_drop, ← hsuf, List.getElem?_cons_zero]
  have hj := hashtail_hash_index dv hdv _ h0
  have hz : ('#' :: (dv ++ [']'])).length - ('#' :: (du ++ [']'])).length = 0 := by omega
  have htu : ('#' :: (du ++ [']'])) = ('#' :: (dv ++ [']'])) := by
    rw [hsuf, hz, List.drop_zero]
  have h3 : du ++ [']'] = dv ++ [']'] := by
    injection htu
  exact (List.append_inj' h3 rfl).1

/-- Overlapping occurrences of two image placeholders carry the same id:
the blocks share their closing bracket, so the hash-id tails end together
and coincide. -/
theorem image_overlap_ident (s u v iu iv : Str) (p q : Nat)
    (hu : ImageShape u iu) (hv : ImageShape v iv)
    (hou : occursAt s u p) (hov : occursAt s v q)
    (h1 : q < p + u.length) (h2 : p < q + v.length) : iu = iv := by
  obtain ⟨mu, hub, hmur⟩ := imageShape_block u iu hu
  obtain ⟨mv, hvb, hmvr⟩ := imageShape_block v iv hv
  have hend := blocks_overlap_ends s u v p q mu mv hub hmur hvb hmvr hou hov h1 h2
  obtain ⟨zu, du, hdune, hdud, huz, hiu⟩ := imageShape_tail u iu hu
  obtain ⟨zv, dv, hdvne, hdvd, hvz, hiv⟩ := imageShape_tail v iv hv
  have htu := occursAt_of_append s u zu ('#' :: (du ++ [']'])) p hou huz
  have htv := occursAt_of_append s v zv ('#' :: (dv ++ [']'])) q hov hvz
  have hlu : u.length = zu.length + ('#' :: (du ++ [']'])).length := by
    rw [huz, List.length_append]
  have hlv : v.length = zv.length + ('#' :: (dv ++ [']'])).length := by
    rw [hvz, List.length_append]
  have hend2 : p + zu.length + ('#' :: (du ++ [']'])).length =
      q + zv.length + ('#' :: (dv ++ [']'])).length := by omega
  have hdd : du = dv := by
    rcases Nat.le_total ('#' :: (du ++ [']'])).length ('#' :: (dv ++ [']'])).length
        with hle | hle
    · exact hashtail_sameEnd_aux s du dv (p + zu.length) (q + zv.length) hdvd
        htu htv hend2 hle
    · exact (hashtail_sameEnd_aux s dv du (q + zv.length) (p + zu.length) hdud
        htv htu hend2.symm hle).symm
  rw [hiu, hiv, hdd]

/-- Soundness of the global scan: every recorded match is produced by the
token parser on some suffix of the scanned string. -/
theorem matchAllCore_sound (parse : Str → Option (Str × Str)) :
    ∀ (f : Nat) (s : Str) (m : Str × Str), m ∈ matchAllCore parse f s →
      ∃ t, t <:+ s ∧ parse t = some m := by
  intro f
  induction f with
  | zero =>
    intro s m hm
    rw [matchAllCore] at hm
    exact absurd hm (List.not_mem_nil m)
  | succ f ih =>
    intro s m hm
    match s with
    | [] =>
      rw [matchAllCore] at hm
      exact absurd hm (List.not_mem_nil m)
    | c :: rest =>
      rw [matchAllCore] at hm
      cases hp : parse (c :: rest) with
      | some r =>
        obtain ⟨full, ident⟩ := r
        rw [hp] at hm
        rcases List.mem_cons.mp hm with he | hm2
        · exact ⟨c :: rest, List.suffix_refl _, by rw [hp, he]⟩
        · obtain ⟨t, hsuf, hpt⟩ := ih _ m hm2
          exact ⟨t, hsuf.trans (List.drop_suffix _ _), hpt⟩
      | none =>
        rw [hp] at hm
        obtain ⟨t, hsuf, hpt⟩ := ih rest m hm
        exact ⟨t, hsuf.trans (List.suffix_cons c rest), hpt⟩

/-- Soundness of the whole-message scan. -/
theorem matchAllAux_sound (parse : Str → Option (Str × Str)) (s : Str)
    (m : Str × Str) (hm : m ∈ matchAllAux parse s) :
    ∃ t, t <:+ s ∧ parse t = some m := by
  rw [matchAllAux] at hm
  exact matchAllCore_sound parse s.length s m hm

/-- The text-expansion fold never destroys a pasted-text placeholder whose
id is absent from the vault: each replaced placeholder has a different id,
so by the overlap lemma its occurrences are disjoint from the survivor's. -/
theorem expandPastedText_preserves (vault : List (Str × Str)) (u idu : Str)
    (hu : PastedShape u idu) (hlook : List.lookup idu vault = none) :
    ∀ (ms : List (Str × Str)) (acc : Str),
      (∀ m ∈ ms, PastedShape m.1 m.2) → u <:+: acc →
      u <:+: ms.foldl
        (fun expanded m =>
          match List.lookup m.2 vault with
          | some content => jsReplace expanded m.1 content
          | none => expanded)
        acc := by
  intro ms
  induction ms with
  | nil =>
    intro acc hms hacc
    rw [List.foldl_nil]
    exact hacc
  | cons m ms ih =>
    intro acc hms hacc
    rw [List.foldl_cons]
    refine ih _ (fun m2 hm2 => hms m2 (List.mem_cons_of_mem m hm2)) ?_
    show u <:+: (match List.lookup m.2 vault with
      | some content => jsReplace acc m.1 content
      | none => acc)
    cases hl : List.lookup m.2 vault with
    | none => exact hacc
    | some content =>
      refine replace_infix acc u m.1 content hacc ?_
      intro p q hop hoq
      by_contra hcon
      push_neg at hcon
      obtain ⟨hc1, hc2⟩ := hcon
      have hident : idu = m.2 :=
        pasted_overlap_ident acc u m.1 idu m.2 p q hu
          (hms m (List.mem_cons_self m ms)) hop hoq (by omega) (by omega)
      rw [hident, hl] at hlook
      exact absurd hlook (by simp)

/-- The image-expansion fold never destroys an image placeholder whose id
is absent from the vault: stripping a resolved placeholder and trimming
both preserve the survivor as a substring. -/
theorem expandImageReferences_preserves (vault : List (Str × Str)) (u idu : Str)
    (hu : ImageShape u idu) (hlook : List.lookup idu vault = none) :
    ∀ (ms : List (Str × Str)) (acc : Str × List Str),
      (∀ m ∈ ms, ImageShape m.1 m.2) → u <:+: acc.1 →
      u <:+: (ms.foldl
        (fun acc m =>
          match List.lookup m.2 vault with
          | some dat => (jsTrim (jsReplace acc.1 m.1 []), acc.2 ++ [dat])
          | none => acc)
        acc).1 := by
  intro ms
  induction ms with
  | nil =>
    intro acc hms hacc
    rw [List.foldl_nil]
    exact hacc
  | cons m ms ih =>
    intro acc hms hacc
    rw [List.foldl_cons]
    refine ih _ (fun m2 hm2 => hms m2 (List.mem_cons_of_mem m hm2)) ?_
    show u <:+: (match List.lookup m.2 vault with
      | some dat => (jsTrim (jsReplace acc.1 m.1 []), acc.2 ++ [dat])
      | none => acc).1
    cases hl : List.lookup m.2 vault with
    | none => exact hacc
    | some dat =>
      show u <:+: jsTrim (jsReplace acc.1 m.1 [])
      obtain ⟨mu, hub, hmur⟩ := imageShape_block u idu hu
      refine jsTrim_infix u _ ?_ ?_ ?_ ?_
      · rw [hub]
        simp
      · intro c hc
        rw [hub, List.cons_append, List.head?_cons] at hc
        rw [← Option.some.inj hc]
        decide
      · intro c hc
        rw [hub, List.getLast?_concat] at hc
        rw [← Option.some.inj hc]
        decide
      · refine replace_infix acc.1 u m.1 [] hacc ?_
        intro p q hop hoq
        by_contra hcon
        push_neg at hcon
        obtain ⟨hc1, hc2⟩ := hcon
        have hident : idu = m.2 :=
          image_overlap_ident acc.1 u m.1 idu m.2 p q hu
            (hms m (List.mem_cons_self m ms)) hop hoq (by omega) (by omega)
        rw [hident, hl] at hlook
        exact absurd hlook (by simp)

/-- C8: every scanned placeholder match whose token id has no entry in its
vault is left verbatim in the expansion output: it survives as a substring
of the result of expandPastedText, respectively of the text component of
expandImageReferences; both functions are total, so no input raises an
error. -/
theorem unresolved_tokens_verbatim (vault : List (Str × Str)) (message u ident : Str) :
    ((u, ident) ∈ matchAllAux parsePastedAt message →
      List.lookup ident vault = none →
      u <:+: expandPastedText vault message) ∧
    ((u, ident) ∈ matchAllAux parseImageAt message →
      List.lookup ident vault = none →
      u <:+: (expandImageReferences vault message).1) := by
  constructor
  · intro hmem hlook
    obtain ⟨t, hsuf, hp⟩ := matchAllAux_sound parsePastedAt message (u, ident) hmem
    obtain ⟨hshape, rest, hrest⟩ := parsePastedAt_sound t u ident hp
    obtain ⟨a, ha⟩ := hsuf
    have hinf : u <:+: message := by
      refine ⟨a, rest, ?_⟩
      rw [List.append_assoc, ← hrest, ha]
    have hms : ∀ m ∈ matchAllAux parsePastedAt message, PastedShape m.1 m.2 := by
      intro m hm
      obtain ⟨m1, m2⟩ := m
      obtain ⟨t2, hs2, hp2⟩ := matchAllAux_sound parsePastedAt message (m1, m2) hm
      exact (parsePastedAt_sound t2 m1 m2 hp2).1
    exact expandPastedText_preserves vault u ident hshape hlook
      (matchAllAux parsePastedAt message) message hms hinf
  · intro hmem hlook
    obtain ⟨t, hsuf, hp⟩ := matchAllAux_sound parseImageAt message (u, ident) hmem
    obtain ⟨hshape, rest, hrest⟩ := parseImageAt_sound t u ident hp
    obtain ⟨a, ha⟩ := hsuf
    have hinf : u <:+: message := by
      refine ⟨a, rest, ?_⟩
      rw [List.append_assoc, ← hrest, ha]
    have hms : ∀ m ∈ matchAllAux parseImageAt message, ImageShape m.1 m.2 := by
      intro m hm
      obtain ⟨m1, m2⟩ := m
      obtain ⟨t2, hs2, hp2⟩ := matchAllAux_sound parseImageAt message (m1, m2) hm
      exact (parseImageAt_sound t2 m1 m2 hp2).1
    exact expandImageReferences_preserves vault u ident hshape hlook
      (matchAllAux parseImageAt message) (message, []) hms hinf

theorem unresolved_tokens_verbatim_witness :
    (("[Pasted text #1 2 lines]".data, "#1".data) ∈
        matchAllAux parsePastedAt "[Pasted text #1 2 lines]".data ∧
      List.lookup "#1".data ([] : List (Str × Str)) = none ∧
      "[Pasted text #1 2 lines]".data <:+:
        expandPastedText [] "[Pasted text #1 2 lines]".data) ∧
    (("[Image 1X1 a#2]".data, "#2".data) ∈
        matchAllAux parseImageAt "[Image 1X1 a#2]".data ∧
      List.lookup "#2".data ([] : List (Str × Str)) = none ∧
      "[Image 1X1 a#2]".data <:+:
        (expandImageReferences [] "[Image 1X1 a#2]".data).1) :=
  ⟨⟨by decide, by decide,
    (unresolved_tokens_verbatim [] "[Pasted text #1 2 lines]".data
      "[Pasted text #1 2 lines]".data "#1".data).1 (by decide) (by decide)⟩,
   ⟨by decide, by decide,
    (unresolved_tokens_verbatim [] "[Image 1X1 a#2]".data
      "[Image 1X1 a#2]".data "#2".data).2 (by decide) (by decide)⟩⟩
